import Mathlib

/-!
Verification development for the cologne_phonetics Rust crate.

The definitions below are a shallow embedding of the crate's source:
machine bytes (`u8`) are modelled as `Nat` (with `% 256` inserted exactly
where `u8` arithmetic wraps), `Vec<T>` as `List`, and the three output
sinks (plain vector, nibble-packed `CologneVec`, printable string) as
explicit state passing.  The single `iter!` macro of `lib.rs`, which is
instantiated once per sink with a sink-specific push function, is embedded
as `iterStep`, parameterised by the push function exactly as the macro is.
-/

set_option maxRecDepth 4000

namespace CologneCodes

/-- The ten cologne code values, stored in a nibble
(source: `enum CologneCode` in `lib.rs`). -/
inductive CologneCode where
  | Class0
  | Class1
  | Class2
  | Class3
  | Class4
  | Class5
  | Class6
  | Class7
  | Class8
  | Space
deriving DecidableEq, Fintype

/-- `CologneCode::get`: the discriminant value of a code
(`Class0 = 0b0000` … `Class8 = 0b1000`, `Space = 0b1110`). -/
def CologneCode.get : CologneCode → Nat
  | .Class0 => 0
  | .Class1 => 1
  | .Class2 => 2
  | .Class3 => 3
  | .Class4 => 4
  | .Class5 => 5
  | .Class6 => 6
  | .Class7 => 7
  | .Class8 => 8
  | .Space => 14

/-- `CologneCode::as_char`. -/
def CologneCode.as_char : CologneCode → Char
  | .Class0 => '0'
  | .Class1 => '1'
  | .Class2 => '2'
  | .Class3 => '3'
  | .Class4 => '4'
  | .Class5 => '5'
  | .Class6 => '6'
  | .Class7 => '7'
  | .Class8 => '8'
  | .Space => ' '

/-- `nibble_to_cologne`: the source converts a validated nibble back to a
`CologneCode` by an unchecked `transmute`; off the valid tag domain the
source behaviour is undefined, and we pick `Space` as an arbitrary total
extension (all uses are on valid tags, see the representation lemmas). -/
def nibble_to_cologne (b : Nat) : CologneCode :=
  match b with
  | 0 => .Class0
  | 1 => .Class1
  | 2 => .Class2
  | 3 => .Class3
  | 4 => .Class4
  | 5 => .Class5
  | 6 => .Class6
  | 7 => .Class7
  | 8 => .Class8
  | _ => .Space

/-- `lowercase_b` in `lib.rs`: map an input byte to its alphabet index
0–25, or 26 for any non-letter.  `b.wrapping_sub(b'A') & !32` never wraps
because the guard already ensured `b ≥ 65`. -/
def lowercase_b (b : Nat) : Nat :=
  if b < 65 ∨ (b > 90 ∧ b < 97) ∨ b > 122 then 26
  else (b - 65) &&& 223

/-- The 27-entry classification table `CHARACTER_TO_CODE` of `lib.rs`
(`A`–`Z` then the break sentinel).  9 is uncertain `C`, 10 uncertain
`D`/`T`, 11 silent `H`, 12 uncertain `P`, 13 uncertain `X`, 14 break. -/
def CHARACTER_TO_CODE : List Nat :=
  [0, 1, 9, 10, 0, 3, 4, 11, 0, 0, 4, 5, 6,
   6, 0, 12, 4, 7, 8, 10, 0, 3, 3, 13, 0, 8, 14]

/-- The resolver state threaded through `iter!`: the UTF-8 continuation
flag, the two-slot lookback window `last`, and the pending-uncertain flag.
`stuck` records that one of the source's unreachable branches (the
resolver's `unreachable!` panic or the classifier's
`hint::unreachable_unchecked`) was taken; the source has no defined
behaviour there, and we prove `stuck` never becomes `true`. -/
structure IterState where
  utf8 : Bool
  last0 : Nat
  last1 : Nat
  prevUncertain : Bool
  stuck : Bool
deriving DecidableEq

/-- The initial resolver state of every encode entry point:
flag disarmed, lookback window `[26, 26]`, nothing pending. -/
def initState : IterState :=
  ⟨false, 26, 26, false, false⟩

/-- The pending-uncertain resolution table: the `match ($last[0], $last[1], b)`
inside `iter!`, arms in source order (first match wins).  `l0`/`l1` are the
lookback window before the slide, `b` the current letter index.  Letter
indices: C = 2, D = 3, H = 7, P = 15, S = 18, T = 19, Z = 25, break = 26.
`none` is the `unreachable!` arm. -/
def resolveUncertain (l0 l1 b : Nat) : Option CologneCode :=
  if l1 = 15 then
    -- uncertain P: PH is Class3, anything else Class1
    if b = 7 then some .Class3 else some .Class1
  else if l1 = 3 ∨ l1 = 19 then
    -- uncertain D or T: before C, S, Z it is Class8, else Class2
    if b = 2 ∨ b = 18 ∨ b = 25 then some .Class8 else some .Class2
  else if l1 = 2 then
    -- uncertain C, arms in source order
    if l0 = 26 ∧ (b = 0 ∨ b = 7 ∨ b = 10 ∨ b = 11 ∨ b = 14 ∨ b = 16 ∨
        b = 17 ∨ b = 20 ∨ b = 23) then
      some .Class4
    else if l0 = 18 ∨ l0 = 25 then
      some .Class8
    else if b = 0 ∨ b = 7 ∨ b = 10 ∨ b = 14 ∨ b = 16 ∨ b = 20 ∨ b = 23 then
      some .Class4
    else if l0 = 26 then
      some .Class8
    else
      some .Class8
  else
    none

/-- The classification half of `iter!`: lookup of the (already
case-folded) letter index `b` in `CHARACTER_TO_CODE` and the `match res`
that follows, ending with the `array_slide!` of the lookback window.
A failed lookup is the source's `hint::unreachable_unchecked`. -/
def classifyTail {σ : Type} (push : σ → CologneCode → σ) (b : Nat)
    (st : IterState) (s : σ) : IterState × σ :=
  match CHARACTER_TO_CODE[b]? with
  | none => ({ st with stuck := true }, s)
  | some res =>
    let r : IterState × σ :=
      if res ≤ 8 then
        (st, push s (nibble_to_cologne res))
      else if res = 13 then
        -- UNCERTAIN_X, resolved immediately against $last[1]
        if st.last1 = 2 ∨ st.last1 = 10 ∨ st.last1 = 16 then
          (st, push s .Class8)
        else
          (st, push (push s .Class4) .Class8)
      else if res = 11 then
        (st, s)
      else if res = 14 then
        (st, push s .Space)
      else
        ({ st with prevUncertain := true }, s)
    ({ r.1 with last0 := r.1.last1, last1 := b }, r.2)

/-- The lower half of `iter!` after the UTF-8 pre-scan: case-fold the
byte, resolve a pending uncertain letter if any, then classify. -/
def classifyStep {σ : Type} (push : σ → CologneCode → σ) (b0 : Nat)
    (st : IterState) (s : σ) : IterState × σ :=
  let b := lowercase_b b0
  if st.prevUncertain then
    match resolveUncertain st.last0 st.last1 b with
    | none =>
      -- source: unreachable!(...) panic; never taken
      ({ st with prevUncertain := false, stuck := true }, s)
    | some c =>
      classifyTail push b { st with prevUncertain := false } (push s c)
  else
    classifyTail push b st s

/-- One full iteration of the `iter!` macro on byte `b0`, parameterised by
the sink push function exactly as the macro is.  Bytes above `0x7F` arm or
disarm the continuation flag and are dropped; while the flag is armed the
byte is matched against the four German second bytes (ä/ö/ü/ß ↦
`A`/`O`/`U`/`Z`), anything else is dropped. -/
def iterStep {σ : Type} (push : σ → CologneCode → σ) (b0 : Nat)
    (st : IterState) (s : σ) : IterState × σ :=
  if b0 > 0x7F then
    ({ st with utf8 := b0 = 195 }, s)
  else if st.utf8 then
    if b0 = 164 then classifyStep push 65 { st with utf8 := false } s
    else if b0 = 182 then classifyStep push 79 { st with utf8 := false } s
    else if b0 = 188 then classifyStep push 85 { st with utf8 := false } s
    else if b0 = 159 then classifyStep push 90 { st with utf8 := false } s
    else ({ st with utf8 := false }, s)
  else
    classifyStep push b0 st s

/-- Fold `iter!` over a whole byte stream, as each entry point's
`for b in bytes` loop does. -/
def iterFold {σ : Type} (push : σ → CologneCode → σ) (bytes : List Nat)
    (st : IterState) (s : σ) : IterState × σ :=
  bytes.foldl (fun p b => iterStep push b p.1 p.2) (st, s)

/-- `cologne_code_push` of `lib.rs`: the plain-vector sink.  Adjacent
duplicates are dropped; a trailing `Class0` not preceded by `Space` is
overwritten in place by the incoming code. -/
def cologne_code_push (outbuf : List CologneCode) (code : CologneCode) :
    List CologneCode :=
  if outbuf.getLast? = some code then outbuf
  else
    match outbuf.drop (outbuf.length - 2) with
    | [.Space, .Class0] => outbuf ++ [code]
    | [_, .Class0] => outbuf.dropLast ++ [code]
    | _ => outbuf ++ [code]

/-- `utf8_to_cologne_codes_vec` of `lib.rs`: run the state machine with
the plain-vector sink, then finish by pushing a `Space` and popping it
again (which drops or rewrites a trailing filler element). -/
def utf8_to_cologne_codes_vec (bytes : List Nat)
    (outbuf : List CologneCode) : List CologneCode :=
  let r := iterFold cologne_code_push bytes initState outbuf
  (cologne_code_push r.2 .Space).dropLast

/-- Apply a function to the last element of a list, if any
(Rust: `if let Some(last) = v.last_mut() { *last = f(*last) }`). -/
def modifyLast (f : Nat → Nat) : List Nat → List Nat
  | [] => []
  | [a] => [f a]
  | a :: b :: rest => a :: modifyLast f (b :: rest)

/-- The nibble-packed container of `cologne_vec.rs`: `len` cologne codes
stored two per byte in `inner` (high nibble first). -/
structure CologneVec where
  len : Nat
  inner : List Nat
deriving DecidableEq

namespace CologneVec

/-- `CologneVec::new`. -/
def new : CologneVec := ⟨0, []⟩

/-- `CologneVec::with_capacity`: the capacity hint only pre-allocates the
backing storage, which the model does not track. -/
def with_capacity (_cap : Nat) : CologneVec := ⟨0, []⟩

/-- `CologneVec::from_inner`: adopt a backing buffer after clearing it
(the model does not track spare capacity, so only the cleared state
remains). -/
def from_inner (_inner : List Nat) : CologneVec := ⟨0, []⟩

/-- `CologneVec::byte_bound`: is the current length at a byte border? -/
def byte_bound (len : Nat) : Bool := len &&& 1 = 0

/-- `CologneVec::push_raw`: append a code without any dedup checks,
starting a fresh byte at a byte border and or-ing into the free low
nibble otherwise. -/
def push_raw (v : CologneVec) (code : CologneCode) : CologneVec :=
  if byte_bound v.len then
    ⟨v.len + 1, v.inner ++ [code.get <<< 4]⟩
  else
    ⟨v.len + 1, modifyLast (fun last => last ||| code.get) v.inner⟩

/-- `CologneVec::last_is`: does the last stored code equal `code`?
`last << 4` is a `u8` shift, hence the `% 256`. -/
def last_is (v : CologneVec) (code : CologneCode) : Bool :=
  let code_hi := code.get <<< 4
  match v.inner.getLast? with
  | none => false
  | some last =>
    if byte_bound v.len then (last <<< 4) % 256 = code_hi
    else last = code_hi

/-- `CologneVec::last_byte`: the last two stored codes as one byte,
uninitialised positions propagated as `0`.  The source reads the buffer
with `get_unchecked`; the model uses a default of `0`, which is only
exercised on the (unreachable for well-formed vectors) empty cases. -/
def last_byte (v : CologneVec) : Nat :=
  if byte_bound v.len then
    v.inner.getLastD 0
  else
    let last := (v.inner.getLastD 0) >>> 4
    if v.len = 1 then last
    else ((v.inner.getD (v.inner.length - 2) 0) <<< 4) % 256 ||| last

/-- `CologneVec::replace_last`: overwrite the most recent nibble. -/
def replace_last (v : CologneVec) (code : CologneCode) : CologneVec :=
  if byte_bound v.len then
    { v with inner := modifyLast (fun last => (last &&& 0xf0) ||| code.get) v.inner }
  else
    { v with inner := modifyLast (fun last => (last &&& 0x0f) ||| code.get <<< 4) v.inner }

/-- `CologneVec::push`: the packed sink's dedup/overwrite rules, the
packed counterpart of `cologne_code_push`. -/
def push (v : CologneVec) (code : CologneCode) : CologneVec :=
  if v.last_is code then v
  else
    let last := v.last_byte
    if v.len ≥ 2 ∧ last &&& 0x0f = 0 ∧ last >>> 4 ≠ CologneCode.Space.get then
      v.replace_last code
    else
      v.push_raw code

/-- `CologneVec::finish`: drop a trailing `Class0` or `Space` unless the
last two codes are exactly `[Space, Class0]`.  The source's
`len.wrapping_sub(1)` cannot wrap for well-formed vectors; the model uses
truncated subtraction. -/
def finish (v : CologneVec) : CologneVec :=
  let last_byte := v.last_byte
  match v.inner.getLast? with
  | none => v
  | some l =>
    if last_byte = CologneCode.Space.get <<< 4 ||| CologneCode.Class0.get then v
    else if byte_bound v.len then
      let nib := l &&& 0x0f
      if nib = CologneCode.Class0.get ∨ nib = CologneCode.Space.get then
        ⟨v.len - 1, modifyLast (fun b => b &&& 0xf0) v.inner⟩
      else v
    else
      let nib := l >>> 4
      if nib = CologneCode.Class0.get ∨ nib = CologneCode.Space.get then
        ⟨v.len - 1, v.inner.dropLast⟩
      else v

/-- `CologneVec::clear`. -/
def clear (_v : CologneVec) : CologneVec := ⟨0, []⟩

/-- `CologneVec::from_codes`: raw-push every code, then `finish`. -/
def from_codes (codes : List CologneCode) : CologneVec :=
  (codes.foldl (fun v c => v.push_raw c) new).finish

/-- `CologneVec::read_from_utf8`: the packed-sink entry point; runs the
state machine with `CologneVec::push` and finishes. -/
def read_from_utf8 (v : CologneVec) (bytes : List Nat) : CologneVec :=
  (iterFold push bytes initState v).2.finish

/-- The loop of `CologneVec::internal_iter` over all full bytes except
the last one, with the visitor's early exit (`Bool` result: was the
iteration broken?). -/
def iterLoop {σ : Type} (f : σ → CologneCode → σ × Bool) :
    List Nat → σ → σ × Bool
  | [], s => (s, false)
  | b :: rest, s =>
    let r1 := f s (nibble_to_cologne (b >>> 4))
    if r1.2 then (r1.1, true)
    else
      let r2 := f r1.1 (nibble_to_cologne (b &&& 0x0f))
      if r2.2 then (r2.1, true)
      else iterLoop f rest r2.1

/-- `CologneVec::internal_iter`: visit every stored code in order with a
stateful visitor that can break early.  All bytes but the last are
visited whole; the final byte contributes its low nibble only when the
length is byte-bound. -/
def internal_iter {σ : Type} (v : CologneVec)
    (f : σ → CologneCode → σ × Bool) (s0 : σ) : σ :=
  let r := iterLoop f v.inner.dropLast s0
  if r.2 then r.1
  else
    match v.inner.getLast? with
    | none => r.1
    | some last =>
      if byte_bound v.len then
        let r1 := f r.1 (nibble_to_cologne (last >>> 4))
        if r1.2 then r1.1
        else (f r1.1 (nibble_to_cologne (last &&& 0x0f))).1
      else
        (f r.1 (nibble_to_cologne (last >>> 4))).1

end CologneVec

/-- Decode a packed vector back into the list of stored codes, using
`internal_iter` with the collect-everything visitor. -/
def decodeList (v : CologneVec) : List CologneCode :=
  v.internal_iter (fun l c => (l ++ [c], false)) []

/-- The string sink's wrapper (`struct CologneString` of `string.rs`):
the output characters plus a two-slot buffer of not-yet-committed codes. -/
structure CologneString where
  last0 : Option CologneCode
  last1 : Option CologneCode
  inner : List Char
deriving DecidableEq

/-- `CologneString::last`: the most recently buffered code. -/
def CologneString.last (s : CologneString) : Option CologneCode :=
  s.last1.or s.last0

/-- `cologne_code_push_char` of `string.rs`: the string sink's push.  The
same dedup/overwrite rules, applied to the two-slot pending buffer; a
code is only committed to the string once it can no longer be
overwritten.  The source's `[None, Some(_)]` arm is `unreachable!` (the
buffer fills from slot 0); the model leaves the state unchanged there. -/
def cologne_code_push_char (s : CologneString) (code : CologneCode) :
    CologneString :=
  if s.last = some code then s
  else
    match s.last0, s.last1 with
    | some a, some b =>
      if b = .Class0 ∧ a ≠ .Space then { s with last1 := some code }
      else ⟨some b, some code, s.inner ++ [a.as_char]⟩
    | some _, none => { s with last1 := some code }
    | none, none => { s with last0 := some code }
    | none, some _ => s

/-- The tail flush at the end of `utf8_to_cologne_codes_string`: commit
the up-to-two still-buffered codes, preserving a `[Space, Class0]` tail
and dropping a trailing `Class0` or `Space` otherwise. -/
def stringFlush (s : CologneString) : List Char :=
  match s.last0, s.last1 with
  | some a, some .Space => s.inner ++ [a.as_char]
  | some .Space, some .Class0 =>
    s.inner ++ [CologneCode.Space.as_char, CologneCode.Class0.as_char]
  | some a, some b =>
    s.inner ++ [a.as_char] ++ (if b ≠ .Class0 then [b.as_char] else [])
  | some .Space, none => s.inner
  | some a, none => s.inner ++ [a.as_char]
  | _, _ => s.inner

/-- `utf8_to_cologne_codes_string` of `string.rs`: run the state machine
with the string sink (pending buffer initially empty, committed output
appended to the caller's string) and flush the tail. -/
def utf8_to_cologne_codes_string (bytes : List Nat) (outbuf : List Char) :
    List Char :=
  stringFlush (iterFold cologne_code_push_char bytes initState
    ⟨none, none, outbuf⟩).2

/-! ### Sink-independent emission view of the state machine

`iter!` updates the resolver state without ever reading the sink, and
calls the sink's push on a byte-determined list of zero, one or two
codes.  The following mirrors compute that state update and emission
list; `iterStep_eq` proves the factorisation. -/

/-- The resolver-state half of `classifyTail`. -/
def classifyTailState (b : Nat) (st : IterState) : IterState :=
  match CHARACTER_TO_CODE[b]? with
  | none => { st with stuck := true }
  | some res =>
    let r : IterState :=
      if res ≤ 8 then st
      else if res = 13 then st
      else if res = 11 then st
      else if res = 14 then st
      else { st with prevUncertain := true }
    { r with last0 := r.last1, last1 := b }

/-- The emitted codes of `classifyTail`. -/
def classifyTailEmits (b : Nat) (st : IterState) : List CologneCode :=
  match CHARACTER_TO_CODE[b]? with
  | none => []
  | some res =>
    if res ≤ 8 then [nibble_to_cologne res]
    else if res = 13 then
      if st.last1 = 2 ∨ st.last1 = 10 ∨ st.last1 = 16 then [.Class8]
      else [.Class4, .Class8]
    else if res = 11 then []
    else if res = 14 then [.Space]
    else []

/-- The resolver-state half of `classifyStep`. -/
def classifyStepState (b0 : Nat) (st : IterState) : IterState :=
  let b := lowercase_b b0
  if st.prevUncertain then
    match resolveUncertain st.last0 st.last1 b with
    | none => { st with prevUncertain := false, stuck := true }
    | some _ => classifyTailState b { st with prevUncertain := false }
  else
    classifyTailState b st

/-- The emitted codes of `classifyStep`. -/
def classifyStepEmits (b0 : Nat) (st : IterState) : List CologneCode :=
  let b := lowercase_b b0
  if st.prevUncertain then
    match resolveUncertain st.last0 st.last1 b with
    | none => []
    | some c => c :: classifyTailEmits b { st with prevUncertain := false }
  else
    classifyTailEmits b st

/-- The resolver-state half of `iterStep`. -/
def stepState (b0 : Nat) (st : IterState) : IterState :=
  if b0 > 0x7F then { st with utf8 := b0 = 195 }
  else if st.utf8 then
    if b0 = 164 then classifyStepState 65 { st with utf8 := false }
    else if b0 = 182 then classifyStepState 79 { st with utf8 := false }
    else if b0 = 188 then classifyStepState 85 { st with utf8 := false }
    else if b0 = 159 then classifyStepState 90 { st with utf8 := false }
    else { st with utf8 := false }
  else classifyStepState b0 st

/-- The emitted codes of `iterStep`. -/
def stepEmits (b0 : Nat) (st : IterState) : List CologneCode :=
  if b0 > 0x7F then []
  else if st.utf8 then
    if b0 = 164 then classifyStepEmits 65 { st with utf8 := false }
    else if b0 = 182 then classifyStepEmits 79 { st with utf8 := false }
    else if b0 = 188 then classifyStepEmits 85 { st with utf8 := false }
    else if b0 = 159 then classifyStepEmits 90 { st with utf8 := false }
    else []
  else classifyStepEmits b0 st

/-- State and emission stream of a whole byte stream. -/
def runEmits : List Nat → IterState → IterState × List CologneCode
  | [], st => (st, [])
  | b :: rest, st =>
    let r := runEmits rest (stepState b st)
    (r.1, stepEmits b st ++ r.2)

theorem classifyTail_eq {σ : Type} (push : σ → CologneCode → σ) (b : Nat)
    (st : IterState) (s : σ) :
    classifyTail push b st s =
      (classifyTailState b st, (classifyTailEmits b st).foldl push s) := by
  unfold classifyTail classifyTailState classifyTailEmits
  cases CHARACTER_TO_CODE[b]? with
  | none => rfl
  | some res =>
    simp only
    split_ifs <;> rfl

theorem classifyStep_eq {σ : Type} (push : σ → CologneCode → σ) (b0 : Nat)
    (st : IterState) (s : σ) :
    classifyStep push b0 st s =
      (classifyStepState b0 st, (classifyStepEmits b0 st).foldl push s) := by
  unfold classifyStep classifyStepState classifyStepEmits
  simp only
  split_ifs with h
  · cases resolveUncertain st.last0 st.last1 (lowercase_b b0) with
    | none => rfl
    | some c => simp [classifyTail_eq]
  · simp [classifyTail_eq]

theorem iterStep_eq {σ : Type} (push : σ → CologneCode → σ) (b0 : Nat)
    (st : IterState) (s : σ) :
    iterStep push b0 st s =
      (stepState b0 st, (stepEmits b0 st).foldl push s) := by
  unfold iterStep stepState stepEmits
  split_ifs <;> simp [classifyStep_eq]

theorem iterFold_eq {σ : Type} (push : σ → CologneCode → σ)
    (bytes : List Nat) (st : IterState) (s : σ) :
    iterFold push bytes st s =
      ((runEmits bytes st).1, (runEmits bytes st).2.foldl push s) := by
  induction bytes generalizing st s with
  | nil => rfl
  | cons b rest ih =>
    show iterFold push rest (iterStep push b st s).1 (iterStep push b st s).2 = _
    rw [iterStep_eq, ih]
    simp [runEmits, List.foldl_append]

/-- Parse one printable cologne character back to its class (`'0'`–`'8'`
to `Class0`–`Class8`, `' '` to `Space`); other characters never occur in
sink output and default to `Space`. -/
def code_of_char (c : Char) : CologneCode :=
  if c = '0' then .Class0
  else if c = '1' then .Class1
  else if c = '2' then .Class2
  else if c = '3' then .Class3
  else if c = '4' then .Class4
  else if c = '5' then .Class5
  else if c = '6' then .Class6
  else if c = '7' then .Class7
  else if c = '8' then .Class8
  else .Space

/-- Parse a printable cologne string back to the class sequence. -/
def parseCologne (cs : List Char) : List CologneCode :=
  cs.map code_of_char

/-! ### The packed representation

`encodeBytes l` is the byte buffer that stores the code sequence `l` two
codes per byte, high nibble first, with a zero low nibble padding an odd
tail — exactly the layout `CologneVec` maintains.  `PackedRepr v l` says
`v` is the packed form of `l`. -/

/-- The nibble-packed byte buffer holding a code sequence. -/
def encodeBytes : List CologneCode → List Nat
  | [] => []
  | [a] => [a.get <<< 4]
  | a :: b :: rest => (a.get <<< 4 ||| b.get) :: encodeBytes rest

/-- `v` is the packed form of the logical code sequence `l`. -/
def PackedRepr (v : CologneVec) (l : List CologneCode) : Prop :=
  v.len = l.length ∧ v.inner = encodeBytes l

/-! Finite bit-level facts about valid nibble tags, all discharged by
enumeration over the ten codes. -/

theorem get_lt_16 : ∀ c : CologneCode, c.get < 16 := by decide

theorem get_inj : ∀ c d : CologneCode, c.get = d.get ↔ c = d := by decide

theorem nibble_get : ∀ c : CologneCode, nibble_to_cologne c.get = c := by
  decide

theorem hi_of_pair : ∀ y x : CologneCode,
    (y.get <<< 4 ||| x.get) >>> 4 = y.get := by decide

theorem lo_of_pair : ∀ y x : CologneCode,
    (y.get <<< 4 ||| x.get) &&& 0x0f = x.get := by decide

theorem hi_of_single : ∀ x : CologneCode, (x.get <<< 4) >>> 4 = x.get := by
  decide

theorem lo_of_single : ∀ x : CologneCode, (x.get <<< 4) &&& 0x0f = 0 := by
  decide

theorem shift_pair_mod : ∀ y x : CologneCode,
    ((y.get <<< 4 ||| x.get) <<< 4) % 256 = x.get <<< 4 := by decide

theorem replace_pair : ∀ y x c : CologneCode,
    ((y.get <<< 4 ||| x.get) &&& 0xf0) ||| c.get = y.get <<< 4 ||| c.get := by
  decide

theorem replace_single : ∀ x c : CologneCode,
    ((x.get <<< 4) &&& 0x0f) ||| c.get <<< 4 = c.get <<< 4 := by decide

theorem mask_pair : ∀ y x : CologneCode,
    (y.get <<< 4 ||| x.get) &&& 0xf0 = y.get <<< 4 := by decide

theorem pair_eq_e0 : ∀ y x : CologneCode,
    y.get <<< 4 ||| x.get = 224 ↔ y = .Space ∧ x = .Class0 := by decide

theorem single_ne_e0 : ∀ x : CologneCode, x.get ≠ 224 := by decide

theorem lor_single : ∀ x c : CologneCode,
    (x.get <<< 4) ||| c.get = x.get <<< 4 ||| c.get := fun _ _ => rfl

theorem shift_single_eq : ∀ x c : CologneCode,
    x.get <<< 4 = c.get <<< 4 ↔ x = c := by decide

theorem pair_shift_eq : ∀ y x c : CologneCode,
    ((y.get <<< 4 ||| x.get) <<< 4) % 256 = c.get <<< 4 ↔ x = c := by decide

theorem pair_get_valid : ∀ y x : CologneCode, y.get <<< 4 ||| x.get < 256 := by
  decide

/-! Structural lemmas about `encodeBytes`. -/

theorem encodeBytes_append_of_even (l t : List CologneCode)
    (h : l.length % 2 = 0) :
    encodeBytes (l ++ t) = encodeBytes l ++ encodeBytes t := by
  induction l using encodeBytes.induct with
  | case1 => simp [encodeBytes]
  | case2 a => simp at h
  | case3 a b rest ih =>
    simp only [List.cons_append, encodeBytes, List.append_eq]
    rw [ih (by simp at h; omega)]

theorem length_encodeBytes (l : List CologneCode) :
    (encodeBytes l).length = (l.length + 1) / 2 := by
  induction l using encodeBytes.induct with
  | case1 => simp [encodeBytes]
  | case2 a => simp [encodeBytes]
  | case3 a b rest ih => simp [encodeBytes, ih]; omega

theorem encodeBytes_eq_nil (l : List CologneCode) :
    encodeBytes l = [] ↔ l = [] := by
  induction l using encodeBytes.induct with
  | case1 => simp [encodeBytes]
  | case2 a => simp [encodeBytes]
  | case3 a b rest ih => simp [encodeBytes]

theorem encodeBytes_snoc_even (l : List CologneCode) (c : CologneCode)
    (h : l.length % 2 = 0) :
    encodeBytes (l ++ [c]) = encodeBytes l ++ [c.get <<< 4] := by
  rw [encodeBytes_append_of_even l [c] h]; rfl

theorem encodeBytes_snoc_pair (l : List CologneCode) (y c : CologneCode)
    (h : l.length % 2 = 0) :
    encodeBytes (l ++ [y, c]) = encodeBytes l ++ [y.get <<< 4 ||| c.get] := by
  rw [encodeBytes_append_of_even l [y, c] h]; rfl

theorem modifyLast_concat (f : Nat → Nat) (l : List Nat) (a : Nat) :
    modifyLast f (l ++ [a]) = l ++ [f a] := by
  induction l with
  | nil => rfl
  | cons x rest ih =>
    cases rest with
    | nil => rfl
    | cons r rs => simpa [modifyLast] using ih

theorem byte_bound_iff (n : Nat) :
    CologneVec.byte_bound n = true ↔ n % 2 = 0 := by
  simp [CologneVec.byte_bound, Nat.and_one_is_mod]

/-! Computation rules for the vector sink push. -/

theorem push_of_getLast (l : List CologneCode) (c : CologneCode)
    (h : l.getLast? = some c) : cologne_code_push l c = l := by
  simp [cologne_code_push, h]

theorem push_nil (c : CologneCode) : cologne_code_push [] c = [c] := rfl

theorem push_single (x c : CologneCode) (h : x ≠ c) :
    cologne_code_push [x] c = [x, c] := by
  have : ([x] : List CologneCode).getLast? = some x := rfl
  simp only [cologne_code_push, this]
  rw [if_neg (by simpa using h)]
  cases x <;> rfl

theorem drop_pair (l : List CologneCode) (y x : CologneCode) :
    (l ++ [y, x]).drop ((l ++ [y, x]).length - 2) = [y, x] := by
  have h2 : (l ++ [y, x]).length - 2 = l.length := by simp
  rw [h2, List.drop_left]

theorem getLast_pair (l : List CologneCode) (y x : CologneCode) :
    (l ++ [y, x]).getLast? = some x := by
  simp [List.getLast?_append]

theorem dropLast_pair (l : List CologneCode) (y x : CologneCode) :
    (l ++ [y, x]).dropLast = l ++ [y] := by
  have h : l ++ [y, x] = (l ++ [y]) ++ [x] := by simp
  rw [h, List.dropLast_concat]

theorem push_pair_replace (l : List CologneCode) (y c : CologneCode)
    (hy : y ≠ .Space) (hc : c ≠ .Class0) :
    cologne_code_push (l ++ [y, .Class0]) c = l ++ [y, c] := by
  simp only [cologne_code_push, getLast_pair, drop_pair]
  rw [if_neg (by simp; exact fun h => hc h.symm)]
  cases y <;> first
    | exact absurd rfl hy
    | simp [dropLast_pair]

theorem push_pair_append (l : List CologneCode) (y x c : CologneCode)
    (h : x ≠ .Class0 ∨ y = .Space) (hc : x ≠ c) :
    cologne_code_push (l ++ [y, x]) c = l ++ [y, x, c] := by
  simp only [cologne_code_push, getLast_pair, drop_pair]
  rw [if_neg (by simpa using hc)]
  cases x <;> cases y <;> simp_all

/-! Correspondence of the `CologneVec` operations with the list sink. -/

theorem repr_eq (v : CologneVec) (l : List CologneCode)
    (h : PackedRepr v l) : v = ⟨l.length, encodeBytes l⟩ := by
  obtain ⟨hlen, hinner⟩ := h
  cases v
  simp_all

theorem repr_canon (l : List CologneCode) :
    PackedRepr ⟨l.length, encodeBytes l⟩ l := ⟨rfl, rfl⟩

theorem byte_bound_eq_true (n : Nat) (h : n % 2 = 0) :
    CologneVec.byte_bound n = true := (byte_bound_iff n).2 h

theorem byte_bound_eq_false (n : Nat) (h : n % 2 = 1) :
    CologneVec.byte_bound n = false := by
  cases hbb : CologneVec.byte_bound n
  · rfl
  · exact absurd ((byte_bound_iff n).1 hbb) (by omega)

theorem push_raw_repr (v : CologneVec) (l : List CologneCode)
    (c : CologneCode) (h : PackedRepr v l) :
    PackedRepr (v.push_raw c) (l ++ [c]) := by
  obtain rfl := repr_eq v l h
  by_cases hp : l.length % 2 = 0
  · have hb := byte_bound_eq_true l.length hp
    refine ⟨by simp [CologneVec.push_raw, hb], ?_⟩
    simp [CologneVec.push_raw, hb, encodeBytes_snoc_even l c hp]
  · rcases List.eq_nil_or_concat l with rfl | ⟨L, x, hL⟩
    · simp at hp
    · rw [List.concat_eq_append] at hL
      subst hL
      have hLp : L.length % 2 = 0 := by simp at hp; omega
      have hb := byte_bound_eq_false (L ++ [x]).length (by simp; omega)
      have hb2 := byte_bound_eq_false (L.length + 1) (by omega)
      refine ⟨by simp [CologneVec.push_raw, hb2], ?_⟩
      simp only [CologneVec.push_raw, hb, Bool.false_eq_true, if_false]
      show modifyLast _ (encodeBytes (L ++ [x])) = _
      rw [encodeBytes_snoc_even L x hLp, modifyLast_concat]
      have hre : (L ++ [x]) ++ [c] = L ++ [x, c] := by simp
      rw [hre, encodeBytes_snoc_pair L x c hLp]

theorem last_is_repr (v : CologneVec) (l : List CologneCode)
    (c : CologneCode) (h : PackedRepr v l) :
    v.last_is c = true ↔ l.getLast? = some c := by
  obtain rfl := repr_eq v l h
  rcases List.eq_nil_or_concat l with rfl | ⟨L, x, hL⟩
  · simp [CologneVec.last_is, encodeBytes]
  · rw [List.concat_eq_append] at hL
    subst hL
    by_cases hp : L.length % 2 = 0
    · -- odd total length: the last code is a lone high nibble
      have hb := byte_bound_eq_false (L ++ [x]).length (by simp; omega)
      simp only [CologneVec.last_is, encodeBytes_snoc_even L x hp,
        List.getLast?_concat, hb, Bool.false_eq_true, if_false]
      simp [shift_single_eq]
    · -- even total length: the last code is the low nibble of the last byte
      rcases List.eq_nil_or_concat L with rfl | ⟨M, y, hM⟩
      · simp at hp
      · rw [List.concat_eq_append] at hM
        subst hM
        have hMp : M.length % 2 = 0 := by simp at hp; omega
        have hb := byte_bound_eq_true ((M ++ [y]) ++ [x]).length
          (by simp; omega)
        have hre : (M ++ [y]) ++ [x] = M ++ [y, x] := by simp
        simp only [CologneVec.last_is, hre,
          encodeBytes_snoc_pair M y x hMp, List.getLast?_concat, hb, if_true]
        rw [getLast_pair]
        simp [pair_shift_eq]
        intro hfalse
        rw [byte_bound_eq_true (M.length + 2) (by omega)] at hfalse
        simp at hfalse

theorem last_byte_single (v : CologneVec) (x : CologneCode)
    (h : PackedRepr v [x]) : v.last_byte = x.get := by
  obtain rfl := repr_eq v [x] h
  simp [CologneVec.last_byte, CologneVec.byte_bound, encodeBytes,
    hi_of_single]

theorem last_byte_pair (v : CologneVec) (L : List CologneCode)
    (y x : CologneCode) (h : PackedRepr v (L ++ [y, x])) :
    v.last_byte = y.get <<< 4 ||| x.get := by
  obtain rfl := repr_eq v (L ++ [y, x]) h
  by_cases hp : L.length % 2 = 0
  · -- even total length: the byte is stored whole at the back
    have hb := byte_bound_eq_true (L ++ [y, x]).length (by simp; omega)
    simp [CologneVec.last_byte, hb, encodeBytes_snoc_pair L y x hp]
    intro hfalse
    rw [byte_bound_eq_true (L.length + 2) (by omega)] at hfalse
    simp at hfalse
  · -- odd total length: high nibble of the last byte plus the previous one
    rcases List.eq_nil_or_concat L with rfl | ⟨M, z, hM⟩
    · simp at hp
    · rw [List.concat_eq_append] at hM
      subst hM
      have hMp : M.length % 2 = 0 := by simp at hp; omega
      have hb := byte_bound_eq_false ((M ++ [z]) ++ [y, x]).length
        (by simp; omega)
      have hre : (M ++ [z]) ++ [y, x] = (M ++ [z, y]) ++ [x] := by simp
      have hlen1 : ((M ++ [z]) ++ [y, x]).length ≠ 1 := by simp
      simp only [CologneVec.last_byte, hb, Bool.false_eq_true, if_false]
      rw [if_neg hlen1]
      rw [hre, encodeBytes_snoc_even (M ++ [z, y]) x (by simp; omega),
        encodeBytes_snoc_pair M z y hMp]
      simp only [List.getLastD_concat, hi_of_single]
      have hidx : ((encodeBytes M ++ [z.get <<< 4 ||| y.get]) ++
          [x.get <<< 4]).length - 2 = (encodeBytes M).length := by simp
      rw [hidx, List.append_assoc,
        List.getD_append_right _ _ _ _ (le_refl _)]
      simp [shift_pair_mod]

theorem replace_last_repr (v : CologneVec) (l : List CologneCode)
    (x c : CologneCode) (h : PackedRepr v (l ++ [x])) :
    PackedRepr (v.replace_last c) (l ++ [c]) := by
  obtain rfl := repr_eq v (l ++ [x]) h
  by_cases hp : l.length % 2 = 0
  · -- odd total length: the last code sits alone in the high nibble
    have hb := byte_bound_eq_false (l ++ [x]).length (by simp; omega)
    have hb2 := byte_bound_eq_false (l.length + 1) (by omega)
    refine ⟨by simp [CologneVec.replace_last, hb2], ?_⟩
    simp only [CologneVec.replace_last, hb, Bool.false_eq_true, if_false]
    show modifyLast _ (encodeBytes (l ++ [x])) = _
    rw [encodeBytes_snoc_even l x hp, modifyLast_concat, replace_single,
      ← encodeBytes_snoc_even l c hp]
  · -- even total length: the last code is the low nibble of the last byte
    rcases List.eq_nil_or_concat l with rfl | ⟨M, y, hM⟩
    · simp at hp
    · rw [List.concat_eq_append] at hM
      subst hM
      have hMp : M.length % 2 = 0 := by simp at hp; omega
      have hb := byte_bound_eq_true ((M ++ [y]) ++ [x]).length
        (by simp; omega)
      have hb2 := byte_bound_eq_true (M.length + 2) (by omega)
      refine ⟨by simp [CologneVec.replace_last, hb2], ?_⟩
      simp only [CologneVec.replace_last, hb, if_true]
      show modifyLast _ (encodeBytes ((M ++ [y]) ++ [x])) = _
      have hre : (M ++ [y]) ++ [x] = M ++ [y, x] := by simp
      have hre2 : (M ++ [y]) ++ [c] = M ++ [y, c] := by simp
      rw [hre, hre2, encodeBytes_snoc_pair M y x hMp, modifyLast_concat,
        replace_pair, ← encodeBytes_snoc_pair M y c hMp]

theorem push_repr (v : CologneVec) (l : List CologneCode)
    (c : CologneCode) (h : PackedRepr v l) :
    PackedRepr (v.push c) (cologne_code_push l c) := by
  by_cases hlast : l.getLast? = some c
  · rw [push_of_getLast l c hlast]
    have hli : v.last_is c = true := (last_is_repr v l c h).2 hlast
    simp only [CologneVec.push, hli, if_true]
    exact h
  · have hli : v.last_is c = false := by
      by_contra hne
      exact hlast ((last_is_repr v l c h).1 (by simpa using hne))
    rcases List.eq_nil_or_concat l with rfl | ⟨L, x, hL⟩
    · -- empty buffer: always a raw push
      have hlen2 : ¬ v.len ≥ 2 := by
        obtain ⟨hlen, -⟩ := h; simp at hlen; omega
      simp only [CologneVec.push, hli, Bool.false_eq_true, if_false]
      rw [if_neg (by intro hc; exact hlen2 hc.1)]
      rw [push_nil]
      exact push_raw_repr v [] c h
    · rw [List.concat_eq_append] at hL
      subst hL
      have hxc : x ≠ c := by
        intro he; exact hlast (by rw [he]; simp)
      rcases List.eq_nil_or_concat L with rfl | ⟨M, y, hM⟩
      · -- one element: length bound fails, raw push
        have hlen2 : ¬ v.len ≥ 2 := by
          obtain ⟨hlen, -⟩ := h; simp at hlen; omega
        simp only [CologneVec.push, hli, Bool.false_eq_true, if_false]
        rw [if_neg (by intro hc; exact hlen2 hc.1)]
        rw [List.nil_append, push_single x c hxc]
        exact push_raw_repr v [x] c h
      · rw [List.concat_eq_append] at hM
        subst hM
        have hre : (M ++ [y]) ++ [x] = M ++ [y, x] := by simp
        rw [hre] at h ⊢
        have hlb : v.last_byte = y.get <<< 4 ||| x.get :=
          last_byte_pair v M y x h
        have hlen2 : v.len ≥ 2 := by
          obtain ⟨hlen, -⟩ := h; simp at hlen; omega
        by_cases hcond : x = CologneCode.Class0 ∧ y ≠ CologneCode.Space
        · -- stray-zero overwrite
          obtain ⟨hx0, hyS⟩ := hcond
          subst hx0
          have hc0 : c ≠ CologneCode.Class0 := by
            intro he; subst he; exact hxc rfl
          rw [push_pair_replace M y c hyS hc0]
          simp only [CologneVec.push, hli, Bool.false_eq_true, if_false]
          rw [if_pos ?side]
          case side =>
            refine ⟨hlen2, ?_, ?_⟩
            · rw [hlb, lo_of_pair]; rfl
            · rw [hlb, hi_of_pair]
              intro hh
              exact hyS ((get_inj y CologneCode.Space).1 hh)
          have hre2 : M ++ [y, CologneCode.Class0] =
              (M ++ [y]) ++ [CologneCode.Class0] := by simp
          have hre3 : M ++ [y, c] = (M ++ [y]) ++ [c] := by simp
          rw [hre2] at h
          rw [hre3]
          exact replace_last_repr v (M ++ [y]) CologneCode.Class0 c h
        · -- no overwrite: plain append
          have hcond2 : x ≠ CologneCode.Class0 ∨ y = CologneCode.Space := by
            by_cases hx : x = CologneCode.Class0
            · right
              by_contra hy
              exact hcond ⟨hx, hy⟩
            · left; exact hx
          rw [push_pair_append M y x c hcond2 hxc]
          simp only [CologneVec.push, hli, Bool.false_eq_true, if_false]
          rw [if_neg ?side]
          case side =>
            rintro ⟨-, h0, hS⟩
            rw [hlb, lo_of_pair] at h0
            rw [hlb, hi_of_pair] at hS
            rcases hcond2 with hx | hy
            · exact hx ((get_inj x CologneCode.Class0).1 h0)
            · exact hS (by rw [hy])
          have hre2 : M ++ [y, x, c] = (M ++ [y, x]) ++ [c] := by simp
          rw [hre2]
          exact push_raw_repr v (M ++ [y, x]) c h

/-- The logical effect of `CologneVec::finish` on the stored sequence:
keep a `[Space, Class0]` tail, otherwise drop one trailing `Class0` or
`Space`.  (Proof-side description; `finish_repr` relates it to the
nibble-level operation.) -/
def packedFinishL (l : List CologneCode) : List CologneCode :=
  match l.getLast? with
  | none => l
  | some y =>
    if l.drop (l.length - 2) = [CologneCode.Space, CologneCode.Class0] then l
    else if y = CologneCode.Class0 ∨ y = CologneCode.Space then l.dropLast
    else l

theorem packedFinishL_nil : packedFinishL [] = [] := rfl

theorem packedFinishL_single (x : CologneCode) :
    packedFinishL [x] =
      (if x = CologneCode.Class0 ∨ x = CologneCode.Space then [] else [x]) := by
  have h1 : ([x] : List CologneCode).getLast? = some x := rfl
  have h2 : ([x] : List CologneCode).drop ([x].length - 2) = [x] := rfl
  simp only [packedFinishL, h1, h2]
  rw [if_neg (by simp)]
  split_ifs with h3 <;> simp

theorem packedFinishL_pair (L : List CologneCode) (y x : CologneCode) :
    packedFinishL (L ++ [y, x]) =
      (if y = CologneCode.Space ∧ x = CologneCode.Class0 then L ++ [y, x]
       else if x = CologneCode.Class0 ∨ x = CologneCode.Space then L ++ [y]
       else L ++ [y, x]) := by
  simp only [packedFinishL, getLast_pair, drop_pair, dropLast_pair]
  split_ifs with h1 h2 h3 h4 h5 h6 <;> simp_all

theorem finish_repr (v : CologneVec) (l : List CologneCode)
    (h : PackedRepr v l) : PackedRepr v.finish (packedFinishL l) := by
  obtain rfl := repr_eq v l h
  rcases List.eq_nil_or_concat l with rfl | ⟨L, x, hL⟩
  · exact ⟨rfl, rfl⟩
  · rw [List.concat_eq_append] at hL
    subst hL
    rcases List.eq_nil_or_concat L with rfl | ⟨M, y, hM⟩
    · -- single element
      rw [List.nil_append]
      have hlb : CologneVec.last_byte ⟨([x] : List CologneCode).length,
          encodeBytes [x]⟩ = x.get := last_byte_single _ x (repr_canon [x])
      have hgl : (encodeBytes [x]).getLast? = some (x.get <<< 4) := rfl
      simp only [CologneVec.finish, hlb, hgl]
      rw [if_neg (by rw [show CologneCode.Space.get <<< 4 |||
        CologneCode.Class0.get = 224 from rfl]; exact single_ne_e0 x)]
      have hb := byte_bound_eq_false ([x] : List CologneCode).length
        (by simp)
      rw [hb]
      simp only [Bool.false_eq_true, if_false, hi_of_single]
      rw [packedFinishL_single]
      by_cases hx : x = CologneCode.Class0 ∨ x = CologneCode.Space
      · rw [if_pos ?cond, if_pos hx]
        case cond =>
          rcases hx with hx | hx <;> subst hx <;> simp
        exact ⟨rfl, rfl⟩
      · rw [if_neg ?cond, if_neg hx]
        case cond =>
          intro hc
          rcases hc with hc | hc
          · exact hx (Or.inl ((get_inj x CologneCode.Class0).1 hc))
          · exact hx (Or.inr ((get_inj x CologneCode.Space).1 hc))
        exact repr_canon [x]
    · rw [List.concat_eq_append] at hM
      subst hM
      have hre : (M ++ [y]) ++ [x] = M ++ [y, x] := by simp
      rw [hre]
      have hlb : CologneVec.last_byte ⟨(M ++ [y, x]).length,
          encodeBytes (M ++ [y, x])⟩ = y.get <<< 4 ||| x.get :=
        last_byte_pair _ M y x (repr_canon _)
      rw [packedFinishL_pair]
      by_cases he0 : y = CologneCode.Space ∧ x = CologneCode.Class0
      · -- preserved [Space, Class0] tail
        obtain ⟨hy, hx⟩ := he0
        subst hy; subst hx
        have hgl : ∃ b, (encodeBytes (M ++ [CologneCode.Space,
            CologneCode.Class0])).getLast? = some b := by
          rcases List.eq_nil_or_concat (encodeBytes (M ++ [CologneCode.Space,
            CologneCode.Class0])) with hnil | ⟨B, b, hB⟩
          · exact absurd ((encodeBytes_eq_nil _).1 hnil) (by simp)
          · exact ⟨b, by rw [hB, List.concat_eq_append, List.getLast?_concat]⟩
        obtain ⟨b, hgl⟩ := hgl
        simp only [CologneVec.finish, hlb, hgl]
        simp only [and_self, eq_self_iff_true, if_true]
        exact repr_canon _
      · -- the last code decides
        have hne : y.get <<< 4 ||| x.get ≠ 224 := by
          intro hc
          exact he0 ((pair_eq_e0 y x).1 hc)
        rw [if_neg he0]
        by_cases hp : M.length % 2 = 0
        · -- even total length: mask the low nibble of the last byte
          have hb := byte_bound_eq_true (M ++ [y, x]).length (by simp; omega)
          have henc := encodeBytes_snoc_pair M y x hp
          have hgl : (encodeBytes (M ++ [y, x])).getLast? =
              some (y.get <<< 4 ||| x.get) := by
            rw [henc, List.getLast?_concat]
          simp only [CologneVec.finish, hlb, hgl]
          rw [if_neg (by rw [show CologneCode.Space.get <<< 4 |||
            CologneCode.Class0.get = 224 from rfl]; exact hne), hb]
          simp only [if_true, lo_of_pair]
          by_cases hx : x = CologneCode.Class0 ∨ x = CologneCode.Space
          · rw [if_pos ?cond, if_pos hx]
            case cond =>
              rcases hx with hx | hx <;> subst hx <;> simp
            refine ⟨by simp, ?_⟩
            show modifyLast _ (encodeBytes (M ++ [y, x])) = _
            rw [henc, modifyLast_concat, mask_pair,
              ← encodeBytes_snoc_even M y hp]
          · rw [if_neg ?cond, if_neg hx]
            case cond =>
              intro hc
              rcases hc with hc | hc
              · exact hx (Or.inl ((get_inj x CologneCode.Class0).1 hc))
              · exact hx (Or.inr ((get_inj x CologneCode.Space).1 hc))
            exact repr_canon _
        · -- odd total length: pop the padded last byte
          rcases List.eq_nil_or_concat M with rfl | ⟨N, z, hN⟩
          · simp at hp
          · rw [List.concat_eq_append] at hN
            subst hN
            have hNp : N.length % 2 = 0 := by simp at hp; omega
            have hb := byte_bound_eq_false ((N ++ [z]) ++ [y, x]).length
              (by simp; omega)
            have hre2 : (N ++ [z]) ++ [y, x] = (N ++ [z, y]) ++ [x] := by simp
            have henc : encodeBytes ((N ++ [z]) ++ [y, x]) =
                (encodeBytes N ++ [z.get <<< 4 ||| y.get]) ++
                  [x.get <<< 4] := by
              rw [hre2, encodeBytes_snoc_even (N ++ [z, y]) x (by simp; omega),
                encodeBytes_snoc_pair N z y hNp]
            have hgl : (encodeBytes ((N ++ [z]) ++ [y, x])).getLast? =
                some (x.get <<< 4) := by
              rw [henc, List.getLast?_concat]
            simp only [CologneVec.finish, hlb, hgl]
            rw [if_neg (by rw [show CologneCode.Space.get <<< 4 |||
              CologneCode.Class0.get = 224 from rfl]; exact hne), hb]
            simp only [Bool.false_eq_true, if_false, hi_of_single]
            by_cases hx : x = CologneCode.Class0 ∨ x = CologneCode.Space
            · rw [if_pos ?cond, if_pos hx]
              case cond =>
                rcases hx with hx | hx <;> subst hx <;> simp
              refine ⟨by simp, ?_⟩
              show (encodeBytes ((N ++ [z]) ++ [y, x])).dropLast = _
              rw [henc, List.dropLast_concat]
              have hre3 : (N ++ [z]) ++ [y] = N ++ [z, y] := by simp
              rw [hre3, encodeBytes_snoc_pair N z y hNp]
            · rw [if_neg ?cond, if_neg hx]
              case cond =>
                intro hc
                rcases hc with hc | hc
                · exact hx (Or.inl ((get_inj x CologneCode.Class0).1 hc))
                · exact hx (Or.inr ((get_inj x CologneCode.Space).1 hc))
              exact repr_canon _

/-- Decoding the two nibbles of every byte of a packed buffer. -/
def flatPairs (bs : List Nat) : List CologneCode :=
  bs.flatMap (fun b => [nibble_to_cologne (b >>> 4), nibble_to_cologne (b &&& 0x0f)])

theorem iterLoop_collect (bytes : List Nat) (acc : List CologneCode) :
    CologneVec.iterLoop (fun l c => (l ++ [c], false)) bytes acc =
      (acc ++ flatPairs bytes, false) := by
  induction bytes generalizing acc with
  | nil => simp [CologneVec.iterLoop, flatPairs]
  | cons b rest ih =>
    simp only [CologneVec.iterLoop, Bool.false_eq_true, if_false, ih,
      flatPairs, List.flatMap_cons]
    simp

theorem flatPairs_encodeBytes (l : List CologneCode)
    (h : l.length % 2 = 0) : flatPairs (encodeBytes l) = l := by
  induction l using encodeBytes.induct with
  | case1 => rfl
  | case2 a => simp at h
  | case3 a b rest ih =>
    simp only [encodeBytes, flatPairs, List.flatMap_cons, hi_of_pair,
      lo_of_pair, nibble_get]
    have hr : rest.length % 2 = 0 := by simp at h; omega
    have := ih hr
    simp only [flatPairs] at this
    rw [this]
    rfl

theorem decode_repr (v : CologneVec) (l : List CologneCode)
    (h : PackedRepr v l) : decodeList v = l := by
  obtain rfl := repr_eq v l h
  rcases List.eq_nil_or_concat l with rfl | ⟨L, x, hL⟩
  · rfl
  · rw [List.concat_eq_append] at hL
    subst hL
    by_cases hp : L.length % 2 = 0
    · -- odd total length: lone high nibble in the last byte
      have henc := encodeBytes_snoc_even L x hp
      have hb := byte_bound_eq_false (L ++ [x]).length (by simp; omega)
      simp only [decodeList, CologneVec.internal_iter, henc,
        List.dropLast_concat, List.getLast?_concat, iterLoop_collect,
        Bool.false_eq_true, if_false, hb, List.nil_append]
      rw [flatPairs_encodeBytes L hp]
      simp [hi_of_single, nibble_get]
    · -- even total length: both nibbles of the last byte
      rcases List.eq_nil_or_concat L with rfl | ⟨M, y, hM⟩
      · simp at hp
      · rw [List.concat_eq_append] at hM
        subst hM
        have hMp : M.length % 2 = 0 := by simp at hp; omega
        have hre : (M ++ [y]) ++ [x] = M ++ [y, x] := by simp
        have henc := encodeBytes_snoc_pair M y x hMp
        have hb := byte_bound_eq_true ((M ++ [y]) ++ [x]).length
          (by simp; omega)
        simp only [decodeList, CologneVec.internal_iter, hre, henc,
          List.dropLast_concat, List.getLast?_concat, iterLoop_collect,
          Bool.false_eq_true, if_false, List.nil_append]
        rw [show CologneVec.byte_bound (⟨(M ++ [y, x]).length,
          encodeBytes M ++ [y.get <<< 4 ||| x.get]⟩ : CologneVec).len =
          true from by simpa using hb]
        rw [flatPairs_encodeBytes M hMp]
        simp [hi_of_pair, lo_of_pair, nibble_get]

/-- The logical effect of the vector sink's finalisation
(`cologne_code_push(outbuf, Space); outbuf.pop()`). -/
def vecFinishL (l : List CologneCode) : List CologneCode :=
  (cologne_code_push l .Space).dropLast

/-- The string sink's state corresponds to committed prior text plus the
logical code sequence `l`: all codes but the last two are committed as
characters, the last up-to-two are still buffered. -/
def StrRepr (prior : List Char) (s : CologneString)
    (l : List CologneCode) : Prop :=
  (l = [] ∧ s = ⟨none, none, prior⟩) ∨
  (∃ a, l = [a] ∧ s = ⟨some a, none, prior⟩) ∨
  (∃ init a b, l = init ++ [a, b] ∧
    s = ⟨some a, some b, prior ++ init.map CologneCode.as_char⟩)

theorem strRepr_init (prior : List Char) :
    StrRepr prior ⟨none, none, prior⟩ [] := Or.inl ⟨rfl, rfl⟩

theorem strRepr_last (prior : List Char) (s : CologneString)
    (l : List CologneCode) (h : StrRepr prior s l) :
    s.last = l.getLast? := by
  rcases h with ⟨rfl, rfl⟩ | ⟨a, rfl, rfl⟩ | ⟨init, a, b, rfl, rfl⟩
  · rfl
  · rfl
  · simp [CologneString.last, getLast_pair]

theorem push_char_of_last (s : CologneString) (c : CologneCode)
    (h : s.last = some c) : cologne_code_push_char s c = s := by
  simp [cologne_code_push_char, h]

theorem push_char_nil (prior : List Char) (c : CologneCode) :
    cologne_code_push_char ⟨none, none, prior⟩ c = ⟨some c, none, prior⟩ :=
  rfl

theorem push_char_single (prior : List Char) (a c : CologneCode)
    (h : a ≠ c) :
    cologne_code_push_char ⟨some a, none, prior⟩ c =
      ⟨some a, some c, prior⟩ := by
  have hl : (⟨some a, none, prior⟩ : CologneString).last = some a := rfl
  simp only [cologne_code_push_char, hl]
  rw [if_neg (by simpa using h)]

theorem push_char_pair_replace (prior : List Char) (a c : CologneCode)
    (haS : a ≠ CologneCode.Space) (hc : CologneCode.Class0 ≠ c) :
    cologne_code_push_char ⟨some a, some CologneCode.Class0, prior⟩ c =
      ⟨some a, some c, prior⟩ := by
  have hl : (⟨some a, some CologneCode.Class0, prior⟩ :
      CologneString).last = some CologneCode.Class0 := rfl
  simp only [cologne_code_push_char, hl]
  rw [if_neg (by simpa using hc)]
  rw [if_pos (And.intro trivial haS)]

theorem push_char_pair_commit (prior : List Char) (a b c : CologneCode)
    (h : b ≠ CologneCode.Class0 ∨ a = CologneCode.Space) (hbc : b ≠ c) :
    cologne_code_push_char ⟨some a, some b, prior⟩ c =
      ⟨some b, some c, prior ++ [a.as_char]⟩ := by
  have hl : (⟨some a, some b, prior⟩ : CologneString).last = some b := rfl
  simp only [cologne_code_push_char, hl]
  rw [if_neg (by simpa using hbc)]
  rw [if_neg (by rintro ⟨hb0, haS⟩; rcases h with h | h <;> contradiction)]

theorem push_char_repr (prior : List Char) (s : CologneString)
    (l : List CologneCode) (c : CologneCode) (h : StrRepr prior s l) :
    StrRepr prior (cologne_code_push_char s c) (cologne_code_push l c) := by
  rcases h with ⟨rfl, rfl⟩ | ⟨a, rfl, rfl⟩ | ⟨init, a, b, rfl, rfl⟩
  · -- empty buffer
    rw [push_nil, push_char_nil]
    right; left
    exact ⟨c, rfl, rfl⟩
  · -- one pending code
    by_cases hac : a = c
    · subst hac
      rw [push_of_getLast [a] a rfl,
        push_char_of_last ⟨some a, none, prior⟩ a rfl]
      right; left
      exact ⟨a, rfl, rfl⟩
    · rw [push_single a c hac, push_char_single prior a c hac]
      right; right
      exact ⟨[], a, c, rfl, by simp⟩
  · -- two pending codes
    by_cases hbc : b = c
    · subst hbc
      rw [push_of_getLast _ b (getLast_pair init a b),
        push_char_of_last _ b (by
          simp [CologneString.last])]
      right; right
      exact ⟨init, a, b, rfl, rfl⟩
    · by_cases hrep : b = CologneCode.Class0 ∧ a ≠ CologneCode.Space
      · obtain ⟨hb0, haS⟩ := hrep
        subst hb0
        rw [push_pair_replace init a c haS (fun hc => hbc hc.symm),
          push_char_pair_replace _ a c haS hbc]
        right; right
        exact ⟨init, a, c, rfl, rfl⟩
      · have hcond : b ≠ CologneCode.Class0 ∨ a = CologneCode.Space := by
          by_cases hb : b = CologneCode.Class0
          · right
            by_contra ha
            exact hrep ⟨hb, ha⟩
          · left; exact hb
        rw [push_pair_append init a b c hcond hbc,
          push_char_pair_commit _ a b c hcond hbc]
        right; right
        refine ⟨init ++ [a], b, c, by simp, ?_⟩
        simp

theorem foldl_push_char_repr (L : List CologneCode) (prior : List Char)
    (s : CologneString) (l : List CologneCode) (h : StrRepr prior s l) :
    StrRepr prior (L.foldl cologne_code_push_char s)
      (L.foldl cologne_code_push l) := by
  induction L generalizing s l with
  | nil => exact h
  | cons c rest ih => exact ih _ _ (push_char_repr prior s l c h)

theorem foldl_push_repr (L : List CologneCode) (v : CologneVec)
    (l : List CologneCode) (h : PackedRepr v l) :
    PackedRepr (L.foldl CologneVec.push v) (L.foldl cologne_code_push l) := by
  induction L generalizing v l with
  | nil => exact h
  | cons c rest ih => exact ih _ _ (push_repr v l c h)

/-! Computation rules for the string sink's tail flush. -/

theorem stringFlush_nil (prior : List Char) :
    stringFlush ⟨none, none, prior⟩ = prior := rfl

theorem stringFlush_single (prior : List Char) (a : CologneCode) :
    stringFlush ⟨some a, none, prior⟩ =
      (if a = CologneCode.Space then prior else prior ++ [a.as_char]) := by
  cases a <;> rfl

theorem stringFlush_pair_space (prior : List Char) (a : CologneCode) :
    stringFlush ⟨some a, some CologneCode.Space, prior⟩ =
      prior ++ [a.as_char] := by
  cases a <;> rfl

theorem stringFlush_space_class0 (prior : List Char) :
    stringFlush ⟨some CologneCode.Space, some CologneCode.Class0, prior⟩ =
      prior ++ [' ', '0'] := rfl

theorem stringFlush_pair (prior : List Char) (a b : CologneCode)
    (hbS : b ≠ CologneCode.Space)
    (hno : ¬(a = CologneCode.Space ∧ b = CologneCode.Class0)) :
    stringFlush ⟨some a, some b, prior⟩ =
      prior ++ [a.as_char] ++
        (if b ≠ CologneCode.Class0 then [b.as_char] else []) := by
  cases a <;> cases b <;> first
    | exact absurd rfl hbS
    | exact absurd (And.intro rfl rfl) hno
    | rfl

theorem flush_repr (prior : List Char) (s : CologneString)
    (l : List CologneCode) (h : StrRepr prior s l) :
    stringFlush s = prior ++ (vecFinishL l).map CologneCode.as_char := by
  rcases h with ⟨rfl, rfl⟩ | ⟨a, rfl, rfl⟩ | ⟨init, a, b, rfl, rfl⟩
  · simp [stringFlush_nil, vecFinishL, push_nil]
  · rw [stringFlush_single]
    by_cases haS : a = CologneCode.Space
    · subst haS
      simp [vecFinishL, push_of_getLast [CologneCode.Space]
        CologneCode.Space rfl]
    · rw [if_neg haS]
      have hpush := push_single a CologneCode.Space haS
      simp [vecFinishL, hpush]
  · by_cases hbS : b = CologneCode.Space
    · subst hbS
      rw [stringFlush_pair_space]
      have hpush := push_of_getLast (init ++ [a, CologneCode.Space])
        CologneCode.Space (getLast_pair init a CologneCode.Space)
      simp only [vecFinishL, hpush, dropLast_pair]
      simp
    · by_cases hrep : a = CologneCode.Space ∧ b = CologneCode.Class0
      · obtain ⟨haS, hb0⟩ := hrep
        subst haS; subst hb0
        rw [stringFlush_space_class0]
        have hpush := push_pair_append init CologneCode.Space
          CologneCode.Class0 CologneCode.Space (Or.inr rfl)
          (by intro hc; cases hc)
        simp only [vecFinishL, hpush]
        have hd : init ++ [CologneCode.Space, CologneCode.Class0,
            CologneCode.Space] = (init ++ [CologneCode.Space,
            CologneCode.Class0]) ++ [CologneCode.Space] := by simp
        rw [hd, List.dropLast_concat]
        simp [CologneCode.as_char]
      · rw [stringFlush_pair (prior ++ List.map CologneCode.as_char init)
          a b hbS hrep]
        by_cases hb0 : b = CologneCode.Class0
        · subst hb0
          have haS : a ≠ CologneCode.Space := by
            intro hc; exact hrep ⟨hc, rfl⟩
          have hpush := push_pair_replace init a CologneCode.Space haS
            (by intro hc; cases hc)
          simp only [vecFinishL, hpush, dropLast_pair]
          simp
        · have hpush := push_pair_append init a b CologneCode.Space
            (Or.inl hb0) hbS
          simp only [vecFinishL, hpush]
          have hd : init ++ [a, b, CologneCode.Space] =
              (init ++ [a, b]) ++ [CologneCode.Space] := by simp
          rw [hd, List.dropLast_concat]
          simp [hb0]

/-! ### Entry points in terms of the shared emission stream -/

theorem vec_entry (bytes : List Nat) (prior : List CologneCode) :
    utf8_to_cologne_codes_vec bytes prior =
      vecFinishL ((runEmits bytes initState).2.foldl cologne_code_push
        prior) := by
  unfold utf8_to_cologne_codes_vec vecFinishL
  rw [iterFold_eq]

theorem packed_entry (bytes : List Nat) (v : CologneVec)
    (l : List CologneCode) (h : PackedRepr v l) :
    PackedRepr (CologneVec.read_from_utf8 v bytes)
      (packedFinishL ((runEmits bytes initState).2.foldl cologne_code_push
        l)) := by
  unfold CologneVec.read_from_utf8
  rw [iterFold_eq]
  exact finish_repr _ _ (foldl_push_repr _ v l h)

theorem string_entry (bytes : List Nat) (prior : List Char) :
    utf8_to_cologne_codes_string bytes prior =
      prior ++ (utf8_to_cologne_codes_vec bytes []).map
        CologneCode.as_char := by
  unfold utf8_to_cologne_codes_string
  rw [iterFold_eq]
  have h := foldl_push_char_repr (runEmits bytes initState).2 prior
    ⟨none, none, prior⟩ [] (strRepr_init prior)
  rw [flush_repr _ _ _ h, vec_entry bytes []]

/-- Away from the single-`Class0` buffer, the vector sink's finalisation
and the packed sink's finalisation agree. -/
theorem finishL_eq (l : List CologneCode) (h : l ≠ [CologneCode.Class0]) :
    vecFinishL l = packedFinishL l := by
  rcases List.eq_nil_or_concat l with rfl | ⟨L, x, hL⟩
  · rfl
  · rw [List.concat_eq_append] at hL
    subst hL
    rcases List.eq_nil_or_concat L with rfl | ⟨M, y, hM⟩
    · -- singleton
      rw [List.nil_append] at h ⊢
      rw [packedFinishL_single]
      by_cases hxS : x = CologneCode.Space
      · subst hxS
        simp [vecFinishL, push_of_getLast [CologneCode.Space]
          CologneCode.Space rfl]
      · have hx0 : x ≠ CologneCode.Class0 := by
          intro hc; subst hc; exact h rfl
        rw [if_neg (by rintro (hc | hc) <;> contradiction)]
        simp [vecFinishL, push_single x CologneCode.Space hxS]
    · rw [List.concat_eq_append] at hM
      subst hM
      have hre : (M ++ [y]) ++ [x] = M ++ [y, x] := by simp
      rw [hre] at h ⊢
      rw [packedFinishL_pair]
      by_cases hxS : x = CologneCode.Space
      · subst hxS
        rw [if_neg (by rintro ⟨-, hc⟩; cases hc), if_pos (Or.inr rfl)]
        simp [vecFinishL, push_of_getLast (M ++ [y, CologneCode.Space])
          CologneCode.Space (getLast_pair M y CologneCode.Space),
          dropLast_pair]
      · by_cases hx0 : x = CologneCode.Class0
        · subst hx0
          by_cases hyS : y = CologneCode.Space
          · subst hyS
            rw [if_pos ⟨rfl, rfl⟩]
            have hpush := push_pair_append M CologneCode.Space
              CologneCode.Class0 CologneCode.Space (Or.inr rfl)
              (by intro hc; cases hc)
            simp only [vecFinishL, hpush]
            have hd : M ++ [CologneCode.Space, CologneCode.Class0,
                CologneCode.Space] = (M ++ [CologneCode.Space,
                CologneCode.Class0]) ++ [CologneCode.Space] := by simp
            rw [hd, List.dropLast_concat]
          · rw [if_neg (by rintro ⟨hc, -⟩; exact hyS hc),
              if_pos (Or.inl rfl)]
            have hpush := push_pair_replace M y CologneCode.Space hyS
              (by intro hc; cases hc)
            simp only [vecFinishL, hpush, dropLast_pair]
        · rw [if_neg (by rintro ⟨-, hc⟩; exact hx0 hc),
            if_neg (by rintro (hc | hc) <;> contradiction)]
          have hpush := push_pair_append M y x CologneCode.Space
            (Or.inl hx0) hxS
          simp only [vecFinishL, hpush]
          have hd : M ++ [y, x, CologneCode.Space] =
              (M ++ [y, x]) ++ [CologneCode.Space] := by simp
          rw [hd, List.dropLast_concat]

theorem vecFinishL_class0 :
    vecFinishL [CologneCode.Class0] = [CologneCode.Class0] := by decide

theorem packedFinishL_class0 :
    packedFinishL [CologneCode.Class0] = [] := by decide

theorem foldl_push_raw_repr (s : List CologneCode) (v : CologneVec)
    (l : List CologneCode) (h : PackedRepr v l) :
    PackedRepr (s.foldl (fun v c => v.push_raw c) v) (l ++ s) := by
  induction s generalizing v l with
  | nil => simpa using h
  | cons c rest ih =>
    have := ih (v.push_raw c) (l ++ [c]) (push_raw_repr v l c h)
    simpa using this

/-- `from_codes` re-applies the finalisation: its decoded content is
`packedFinishL` of the given codes. -/
theorem from_codes_decode (s : List CologneCode) :
    decodeList (CologneVec.from_codes s) = packedFinishL s := by
  unfold CologneVec.from_codes
  have h0 : PackedRepr CologneVec.new [] := ⟨rfl, rfl⟩
  have h1 := foldl_push_raw_repr s CologneVec.new [] h0
  rw [List.nil_append] at h1
  exact decode_repr _ _ (finish_repr _ _ h1)

/-! ### Invariants of the vector sink buffer -/

/-- Adjacent equal `Class0` or `Space` never occur (adjacent equal digit
classes can, via the stray-zero overwrite). -/
def okPair (a b : CologneCode) : Prop :=
  ¬(a = b ∧ (b = CologneCode.Class0 ∨ b = CologneCode.Space))

/-- No two adjacent elements are equal `Class0`s or equal `Space`s. -/
def NoBadAdj (l : List CologneCode) : Prop := List.Chain' okPair l

/-- A `[_, Class0, Space]` tail always has `Space` in front: the
stray-zero overwrite prevents `Class0, Space` after a non-`Space`. -/
def TailOK (l : List CologneCode) : Prop :=
  l.getLast? = some CologneCode.Space →
    l.dropLast.getLast? = some CologneCode.Class0 →
      ∀ x, l.dropLast.dropLast.getLast? = some x → x = CologneCode.Space

theorem chain'_snoc {R : CologneCode → CologneCode → Prop}
    (A : List CologneCode) (b : CologneCode) :
    List.Chain' R (A ++ [b]) ↔
      List.Chain' R A ∧ ∀ a ∈ A.getLast?, R a b := by
  simp [List.chain'_append]

theorem noBadAdj_nil : NoBadAdj [] := List.chain'_nil

theorem tailOK_nil : TailOK [] := by
  intro h
  cases h

theorem push_invariants (l : List CologneCode) (c : CologneCode)
    (h1 : NoBadAdj l) (h2 : TailOK l) :
    NoBadAdj (cologne_code_push l c) ∧ TailOK (cologne_code_push l c) := by
  by_cases hlast : l.getLast? = some c
  · rw [push_of_getLast l c hlast]
    exact ⟨h1, h2⟩
  · rcases List.eq_nil_or_concat l with rfl | ⟨L, x, hL⟩
    · rw [push_nil]
      refine ⟨by simp [NoBadAdj], ?_⟩
      intro hS hC0
      cases hC0
    · rw [List.concat_eq_append] at hL
      subst hL
      rcases List.eq_nil_or_concat L with rfl | ⟨M, y, hM⟩
      · rw [List.nil_append] at hlast ⊢
        have hxc : x ≠ c := fun he => hlast (by rw [he]; simp)
        rw [push_single x c hxc]
        refine ⟨?_, ?_⟩
        · refine List.chain'_cons.2 ⟨fun hc => hxc hc.1, ?_⟩
          simp
        · intro hS hC0 z hz
          cases hz
      · rw [List.concat_eq_append] at hM
        subst hM
        have hre : (M ++ [y]) ++ [x] = M ++ [y, x] := by simp
        rw [hre] at hlast h1 h2 ⊢
        have hxc : x ≠ c := fun he => hlast (by rw [he, getLast_pair])
        have h1s : List.Chain' okPair (M ++ [y]) ∧ okPair y x := by
          have := (chain'_snoc (M ++ [y]) x).1 (by
            rw [show (M ++ [y]) ++ [x] = M ++ [y, x] by simp]
            exact h1)
          exact ⟨this.1, this.2 y (by simp)⟩
        by_cases hrep : x = CologneCode.Class0 ∧ y ≠ CologneCode.Space
        · obtain ⟨hx0, hyS⟩ := hrep
          subst hx0
          rw [push_pair_replace M y c hyS (fun he => hxc he.symm)]
          refine ⟨?_, ?_⟩
          · rw [show M ++ [y, c] = (M ++ [y]) ++ [c] by simp]
            refine (chain'_snoc (M ++ [y]) c).2 ⟨h1s.1, ?_⟩
            intro a ha
            rw [List.getLast?_concat] at ha
            cases ha
            intro hc
            rcases hc.2 with h0 | hS
            · exact hxc h0.symm
            · exact hyS (hc.1.trans hS)
          · intro hS hC0 z hz
            rw [getLast_pair] at hS
            cases hS
            rw [dropLast_pair, List.getLast?_concat] at hC0
            cases hC0
            exact absurd ⟨rfl, Or.inl rfl⟩ h1s.2
        · have hcond : x ≠ CologneCode.Class0 ∨ y = CologneCode.Space := by
            by_cases hx : x = CologneCode.Class0
            · right
              by_contra hy
              exact hrep ⟨hx, hy⟩
            · left; exact hx
          rw [push_pair_append M y x c hcond hxc]
          refine ⟨?_, ?_⟩
          · rw [show M ++ [y, x, c] = (M ++ [y, x]) ++ [c] by simp]
            refine (chain'_snoc (M ++ [y, x]) c).2 ⟨by
              rw [show M ++ [y, x] = (M ++ [y]) ++ [x] by simp]
              exact (chain'_snoc (M ++ [y]) x).2 ⟨h1s.1,
                fun a ha => by
                  rw [List.getLast?_concat] at ha
                  cases ha
                  exact h1s.2⟩, ?_⟩
            intro a ha
            rw [getLast_pair] at ha
            cases ha
            intro hc
            exact hxc hc.1
          · intro hS hC0 z hz
            rw [show M ++ [y, x, c] = (M ++ [y, x]) ++ [c] by simp,
              List.getLast?_concat] at hS
            cases hS
            rw [show M ++ [y, x, CologneCode.Space] =
              (M ++ [y, x]) ++ [CologneCode.Space] by simp,
              List.dropLast_concat, getLast_pair] at hC0
            cases hC0
            have hyS : y = CologneCode.Space := by
              rcases hcond with hx | hy
              · exact absurd rfl hx
              · exact hy
            rw [show M ++ [y, CologneCode.Class0, CologneCode.Space] =
              (M ++ [y, CologneCode.Class0]) ++ [CologneCode.Space] by simp,
              List.dropLast_concat, dropLast_pair,
              List.getLast?_concat] at hz
            cases hz
            exact hyS

theorem foldl_push_invariants (L l : List CologneCode)
    (h1 : NoBadAdj l) (h2 : TailOK l) :
    NoBadAdj (L.foldl cologne_code_push l) ∧
      TailOK (L.foldl cologne_code_push l) := by
  induction L generalizing l with
  | nil => exact ⟨h1, h2⟩
  | cons c rest ih =>
    have h := push_invariants l c h1 h2
    exact ih _ h.1 h.2

theorem chain'_dropLast {R : CologneCode → CologneCode → Prop}
    (l : List CologneCode) (h : List.Chain' R l) :
    List.Chain' R l.dropLast := by
  rcases List.eq_nil_or_concat l with rfl | ⟨L, x, hL⟩
  · exact h
  · rw [List.concat_eq_append] at hL
    subst hL
    rw [List.dropLast_concat]
    exact (List.chain'_append.1 h).1

theorem vecFinishL_noBadAdj (l : List CologneCode)
    (h1 : NoBadAdj l) (h2 : TailOK l) : NoBadAdj (vecFinishL l) :=
  chain'_dropLast _ (push_invariants l CologneCode.Space h1 h2).1

theorem packedFinishL_id_of_tail (L : List CologneCode) (y : CologneCode)
    (hy0 : y ≠ CologneCode.Class0) (hyS : y ≠ CologneCode.Space) :
    packedFinishL (L ++ [y]) = L ++ [y] := by
  rcases List.eq_nil_or_concat L with rfl | ⟨M, z, hM⟩
  · rw [List.nil_append, packedFinishL_single,
      if_neg (by rintro (hc | hc) <;> contradiction)]
  · rw [List.concat_eq_append] at hM
    subst hM
    rw [show (M ++ [z]) ++ [y] = M ++ [z, y] by simp, packedFinishL_pair,
      if_neg (by rintro ⟨-, hc⟩; exact hy0 hc),
      if_neg (by rintro (hc | hc) <;> contradiction)]

/-- On a buffer satisfying the two push invariants, the finished vector
output is a fixed point of the packed finalisation — except for the lone
`[Class0]` output. -/
theorem packedFinishL_of_finished (l : List CologneCode)
    (h1 : NoBadAdj l) (h2 : TailOK l)
    (h3 : vecFinishL l ≠ [CologneCode.Class0]) :
    packedFinishL (vecFinishL l) = vecFinishL l := by
  rcases List.eq_nil_or_concat l with rfl | ⟨L, x, hL⟩
  · rfl
  · rw [List.concat_eq_append] at hL
    subst hL
    rcases List.eq_nil_or_concat L with rfl | ⟨M, y, hM⟩
    · rw [List.nil_append] at h3 ⊢
      by_cases hxS : x = CologneCode.Space
      · subst hxS
        simp [vecFinishL, push_of_getLast [CologneCode.Space]
          CologneCode.Space rfl, packedFinishL_nil]
      · by_cases hx0 : x = CologneCode.Class0
        · subst hx0
          exact absurd vecFinishL_class0 h3
        · rw [show vecFinishL [x] = [x] by
            simp [vecFinishL, push_single x CologneCode.Space hxS]]
          rw [show ([x] : List CologneCode) = [] ++ [x] by simp]
          exact packedFinishL_id_of_tail [] x hx0 hxS
    · rw [List.concat_eq_append] at hM
      subst hM
      rw [show (M ++ [y]) ++ [x] = M ++ [y, x] by simp] at h1 h2 h3 ⊢
      have hok : okPair y x := by
        have := (chain'_snoc (M ++ [y]) x).1 (by
          rw [show (M ++ [y]) ++ [x] = M ++ [y, x] by simp]
          exact h1)
        exact this.2 y (by simp)
      by_cases hxS : x = CologneCode.Space
      · -- trailing Space is dropped
        subst hxS
        have hs : vecFinishL (M ++ [y, CologneCode.Space]) = M ++ [y] := by
          simp [vecFinishL, push_of_getLast (M ++ [y, CologneCode.Space])
            CologneCode.Space (getLast_pair M y CologneCode.Space),
            dropLast_pair]
        rw [hs] at h3 ⊢
        have hyS : y ≠ CologneCode.Space := by
          intro he
          exact hok ⟨he, Or.inr rfl⟩
        by_cases hy0 : y = CologneCode.Class0
        · subst hy0
          rcases List.eq_nil_or_concat M with rfl | ⟨N, z, hN⟩
          · rw [List.nil_append] at h3
            exact absurd rfl h3
          · rw [List.concat_eq_append] at hN
            subst hN
            have hz : z = CologneCode.Space := by
              refine h2 ?_ ?_ z ?_
              · rw [getLast_pair]
              · rw [dropLast_pair, List.getLast?_concat]
              · rw [dropLast_pair, List.dropLast_concat,
                  List.getLast?_concat]
            subst hz
            rw [show (N ++ [CologneCode.Space]) ++ [CologneCode.Class0] =
              N ++ [CologneCode.Space, CologneCode.Class0] by simp,
              packedFinishL_pair, if_pos ⟨rfl, rfl⟩]
        · exact packedFinishL_id_of_tail M y hy0 hyS
      · by_cases hx0 : x = CologneCode.Class0
        · subst hx0
          by_cases hyS : y = CologneCode.Space
          · -- preserved [Space, Class0] tail
            subst hyS
            have hs : vecFinishL (M ++ [CologneCode.Space,
                CologneCode.Class0]) = M ++ [CologneCode.Space,
                CologneCode.Class0] := by
              have hpush := push_pair_append M CologneCode.Space
                CologneCode.Class0 CologneCode.Space (Or.inr rfl)
                (by intro hc; cases hc)
              simp only [vecFinishL, hpush]
              rw [show M ++ [CologneCode.Space, CologneCode.Class0,
                CologneCode.Space] = (M ++ [CologneCode.Space,
                CologneCode.Class0]) ++ [CologneCode.Space] by simp,
                List.dropLast_concat]
            rw [hs]
            rw [packedFinishL_pair, if_pos ⟨rfl, rfl⟩]
          · -- trailing stray zero overwritten then dropped
            have hy0 : y ≠ CologneCode.Class0 := by
              intro he
              exact hok ⟨he, Or.inl rfl⟩
            have hs : vecFinishL (M ++ [y, CologneCode.Class0]) =
                M ++ [y] := by
              have hpush := push_pair_replace M y CologneCode.Space hyS
                (by intro hc; cases hc)
              simp only [vecFinishL, hpush, dropLast_pair]
            rw [hs]
            exact packedFinishL_id_of_tail M y hy0 hyS
        · -- ordinary digit tail is kept
          have hs : vecFinishL (M ++ [y, x]) = M ++ [y, x] := by
            have hpush := push_pair_append M y x CologneCode.Space
              (Or.inl hx0) hxS
            simp only [vecFinishL, hpush]
            rw [show M ++ [y, x, CologneCode.Space] =
              (M ++ [y, x]) ++ [CologneCode.Space] by simp,
              List.dropLast_concat]
          rw [hs]
          rw [packedFinishL_pair,
            if_neg (by rintro ⟨-, hc⟩; exact hx0 hc),
            if_neg (by rintro (hc | hc) <;> contradiction)]

/-! ### The state machine never reaches an unreachable branch -/

/-- Case folding always yields an index at most 26. -/
theorem lowercase_b_le (b : Nat) : lowercase_b b ≤ 26 := by
  unfold lowercase_b
  split_ifs with h
  · exact le_refl 26
  · push_neg at h
    obtain ⟨h1, h2, h3⟩ := h
    interval_cases b <;> first
      | decide
      | exact absurd (h2 (by decide)) (by decide)

/-- The resolver-state invariant: no unreachable branch was taken, and a
pending uncertain letter is always one of C, D, P, T (indices 2, 3, 15,
19). -/
def StInv (st : IterState) : Prop :=
  st.stuck = false ∧
    (st.prevUncertain = true →
      st.last1 = 2 ∨ st.last1 = 3 ∨ st.last1 = 15 ∨ st.last1 = 19)

theorem initState_inv : StInv initState := ⟨rfl, by intro h; cases h⟩

theorem resolveUncertain_isSome (l0 l1 b : Nat)
    (h : l1 = 2 ∨ l1 = 3 ∨ l1 = 15 ∨ l1 = 19) :
    ∃ c, resolveUncertain l0 l1 b = some c := by
  rcases h with h | h | h | h <;> subst h <;>
    simp only [resolveUncertain] <;> norm_num <;>
    split_ifs <;> exact ⟨_, rfl⟩

theorem classifyTailState_inv (b : Nat) (st : IterState) (hb : b ≤ 26)
    (hs : st.stuck = false) (hpu : st.prevUncertain = false) :
    StInv (classifyTailState b st) := by
  interval_cases b <;>
    exact ⟨by simp [classifyTailState, CHARACTER_TO_CODE, hs],
      by simp [classifyTailState, CHARACTER_TO_CODE, hpu]⟩

theorem classifyStepState_inv (b0 : Nat) (st : IterState)
    (h : StInv st) : StInv (classifyStepState b0 st) := by
  unfold classifyStepState
  cases hpu : st.prevUncertain with
  | false =>
    simp only [hpu, Bool.false_eq_true, if_false]
    exact classifyTailState_inv _ st (lowercase_b_le b0) h.1 hpu
  | true =>
    simp only [hpu, if_true]
    obtain ⟨c, hc⟩ := resolveUncertain_isSome st.last0 st.last1
      (lowercase_b b0) (h.2 hpu)
    rw [hc]
    exact classifyTailState_inv _ _ (lowercase_b_le b0) h.1 rfl

theorem stepState_inv (b0 : Nat) (st : IterState) (h : StInv st) :
    StInv (stepState b0 st) := by
  unfold stepState
  split_ifs <;> first
    | exact ⟨h.1, h.2⟩
    | exact classifyStepState_inv _ _ h

theorem runEmits_inv (bytes : List Nat) (st : IterState) (h : StInv st) :
    StInv (runEmits bytes st).1 := by
  induction bytes generalizing st with
  | nil => exact h
  | cons b rest ih => exact ih _ (stepState_inv b st h)

/-! ### The resolution table, stated as in the specification -/

/-- The nine-rule priority table of spec section 4.3, written rule by
rule in the spec's order (first match wins); used only to compare the
code's `resolveUncertain` against the spec text. -/
def specResolveRule (l0 l1 b : Nat) : Option CologneCode :=
  if l1 = 15 ∧ b = 7 then some .Class3
  else if l1 = 15 then some .Class1
  else if (l1 = 3 ∨ l1 = 19) ∧ (b = 2 ∨ b = 18 ∨ b = 25) then some .Class8
  else if l1 = 3 ∨ l1 = 19 then some .Class2
  else if l1 = 2 ∧ l0 = 26 ∧ (b = 0 ∨ b = 7 ∨ b = 10 ∨ b = 11 ∨ b = 14 ∨
      b = 16 ∨ b = 17 ∨ b = 20 ∨ b = 23) then some .Class4
  else if l1 = 2 ∧ (l0 = 18 ∨ l0 = 25) then some .Class8
  else if l1 = 2 ∧ (b = 0 ∨ b = 7 ∨ b = 10 ∨ b = 14 ∨ b = 16 ∨ b = 20 ∨
      b = 23) then some .Class4
  else if l1 = 2 ∧ l0 = 26 then some .Class8
  else if l1 = 2 then some .Class8
  else none

/-! ### ASCII case folding -/

/-- Lowercase an ASCII byte (the ASCII fragment of a full lowercase
transform). -/
def asciiLower (b : Nat) : Nat :=
  if 65 ≤ b ∧ b ≤ 90 then b + 32 else b

/-- Uppercase an ASCII byte. -/
def asciiUpper (b : Nat) : Nat :=
  if 97 ≤ b ∧ b ≤ 122 then b - 32 else b

theorem lowercase_asciiLower : ∀ b : Fin 128,
    lowercase_b (asciiLower b.val) = lowercase_b b.val ∧
      asciiLower b.val ≤ 127 := by decide

theorem lowercase_asciiUpper : ∀ b : Fin 128,
    lowercase_b (asciiUpper b.val) = lowercase_b b.val ∧
      asciiUpper b.val ≤ 127 := by decide

theorem classifyTailState_utf8 (b : Nat) (st : IterState) :
    (classifyTailState b st).utf8 = st.utf8 := by
  unfold classifyTailState
  cases CHARACTER_TO_CODE[b]? with
  | none => rfl
  | some res =>
    simp only
    split_ifs <;> rfl

theorem classifyStepState_utf8 (b0 : Nat) (st : IterState) :
    (classifyStepState b0 st).utf8 = st.utf8 := by
  simp only [classifyStepState]
  split_ifs with h
  · cases hres : resolveUncertain st.last0 st.last1 (lowercase_b b0) with
    | none => simp [hres]
    | some c =>
      simp only [hres]
      exact classifyTailState_utf8 _ _
  · exact classifyTailState_utf8 _ _

theorem classifyStep_congr_state (b b0 : Nat) (st : IterState)
    (h : lowercase_b b = lowercase_b b0) :
    classifyStepState b st = classifyStepState b0 st := by
  unfold classifyStepState
  rw [h]

theorem classifyStep_congr_emits (b b0 : Nat) (st : IterState)
    (h : lowercase_b b = lowercase_b b0) :
    classifyStepEmits b st = classifyStepEmits b0 st := by
  unfold classifyStepEmits
  rw [h]

theorem stepState_ascii (b : Nat) (st : IterState) (hb : b ≤ 127)
    (hu : st.utf8 = false) : stepState b st = classifyStepState b st := by
  unfold stepState
  rw [if_neg (by omega), if_neg (by rw [hu]; exact Bool.false_ne_true)]

theorem stepEmits_ascii (b : Nat) (st : IterState) (hb : b ≤ 127)
    (hu : st.utf8 = false) : stepEmits b st = classifyStepEmits b st := by
  unfold stepEmits
  rw [if_neg (by omega), if_neg (by rw [hu]; exact Bool.false_ne_true)]

/-- Mapping an ASCII case transform over the bytes leaves the emission
stream (and the final resolver state) unchanged. -/
theorem runEmits_map_congr (f : Nat → Nat)
    (hf : ∀ b : Nat, b ≤ 127 → lowercase_b (f b) = lowercase_b b ∧
      f b ≤ 127)
    (bytes : List Nat) (st : IterState)
    (hbytes : ∀ b ∈ bytes, b ≤ 127) (hu : st.utf8 = false) :
    runEmits (bytes.map f) st = runEmits bytes st := by
  induction bytes generalizing st with
  | nil => rfl
  | cons b rest ih =>
    have hb : b ≤ 127 := hbytes b (by simp)
    obtain ⟨hfl, hfle⟩ := hf b hb
    have hstep : stepState (f b) st = stepState b st := by
      rw [stepState_ascii (f b) st hfle hu, stepState_ascii b st hb hu]
      exact classifyStep_congr_state (f b) b st hfl
    have hem : stepEmits (f b) st = stepEmits b st := by
      rw [stepEmits_ascii (f b) st hfle hu, stepEmits_ascii b st hb hu]
      exact classifyStep_congr_emits (f b) b st hfl
    have hu2 : (stepState b st).utf8 = false := by
      rw [stepState_ascii b st hb hu, classifyStepState_utf8, hu]
    simp only [List.map_cons, runEmits, hstep, hem]
    rw [ih (stepState b st) (fun x hx => hbytes x (by simp [hx])) hu2]

/-! ### Well-formedness of the packed vector -/

/-- The `i`-th stored nibble of a packed vector. -/
def nibbleAt (v : CologneVec) (i : Nat) : Nat :=
  if i % 2 = 0 then (v.inner.getD (i / 2) 0) >>> 4
  else (v.inner.getD (i / 2) 0) &&& 0x0f

/-- The representation invariant of spec section 3: the byte buffer holds
`ceil(len/2)` bytes, every stored nibble is a valid tag (0–8 or 14), and
the unused low nibble of an odd tail is zero. -/
def WF (v : CologneVec) : Prop :=
  v.inner.length = (v.len + 1) / 2 ∧
    (∀ i, i < v.len → nibbleAt v i ≤ 8 ∨ nibbleAt v i = 14) ∧
    (v.len % 2 = 1 → v.inner.getLastD 0 &&& 0x0f = 0)

/-- The safe `CologneVec` constructors and mutators (everything except
the unsafe `from_raw`). -/
inductive SafeReach : CologneVec → Prop where
  | new : SafeReach CologneVec.new
  | with_capacity (cap : Nat) : SafeReach (CologneVec.with_capacity cap)
  | from_inner (bs : List Nat) : SafeReach (CologneVec.from_inner bs)
  | from_codes (cs : List CologneCode) : SafeReach (CologneVec.from_codes cs)
  | push (v : CologneVec) (c : CologneCode) :
      SafeReach v → SafeReach (v.push c)
  | finish (v : CologneVec) : SafeReach v → SafeReach v.finish
  | clear (v : CologneVec) : SafeReach v → SafeReach (v.clear)

theorem safeReach_repr (v : CologneVec) (h : SafeReach v) :
    ∃ l, PackedRepr v l := by
  induction h with
  | new => exact ⟨[], rfl, rfl⟩
  | with_capacity cap => exact ⟨[], rfl, rfl⟩
  | from_inner bs => exact ⟨[], rfl, rfl⟩
  | from_codes cs =>
    refine ⟨packedFinishL cs, ?_⟩
    unfold CologneVec.from_codes
    have h1 := foldl_push_raw_repr cs CologneVec.new [] ⟨rfl, rfl⟩
    rw [List.nil_append] at h1
    exact finish_repr _ _ h1
  | push v c hv ih =>
    obtain ⟨l, hl⟩ := ih
    exact ⟨cologne_code_push l c, push_repr v l c hl⟩
  | finish v hv ih =>
    obtain ⟨l, hl⟩ := ih
    exact ⟨packedFinishL l, finish_repr v l hl⟩
  | clear v hv ih => exact ⟨[], rfl, rfl⟩

theorem get_tag_ok : ∀ c : CologneCode, c.get ≤ 8 ∨ c.get = 14 := by
  decide

theorem nibbleAt_encode (l : List CologneCode) (i : Nat)
    (h : i < l.length) :
    nibbleAt ⟨l.length, encodeBytes l⟩ i = (l.get ⟨i, h⟩).get := by
  induction l using encodeBytes.induct generalizing i with
  | case1 => simp at h
  | case2 a =>
    have hi : i = 0 := by simp at h; omega
    subst hi
    simp [nibbleAt, encodeBytes, hi_of_single]
  | case3 a b rest ih =>
    match i with
    | 0 => simp [nibbleAt, encodeBytes, hi_of_pair]
    | 1 => simp [nibbleAt, encodeBytes, lo_of_pair]
    | Nat.succ (Nat.succ j) =>
      have hj : j < rest.length := by simp at h; omega
      have := ih j hj
      simp only [nibbleAt, encodeBytes] at this ⊢
      have hmod : (j + 2) % 2 = j % 2 := by omega
      have hdiv : (j + 2) / 2 = j / 2 + 1 := by omega
      rw [hmod, hdiv]
      simp only [List.getD, List.get?_cons_succ]
      convert this using 2

theorem repr_WF (v : CologneVec) (l : List CologneCode)
    (h : PackedRepr v l) : WF v := by
  obtain rfl := repr_eq v l h
  refine ⟨by simp [length_encodeBytes], ?_, ?_⟩
  · intro i hi
    rw [nibbleAt_encode l i (by simpa using hi)]
    exact get_tag_ok _
  · intro hodd
    simp only at hodd
    rcases List.eq_nil_or_concat l with rfl | ⟨L, x, hL⟩
    · simp at hodd
    · rw [List.concat_eq_append] at hL
      subst hL
      have hLp : L.length % 2 = 0 := by simp at hodd; omega
      show (encodeBytes (L ++ [x])).getLastD 0 &&& 0x0f = 0
      rw [encodeBytes_snoc_even L x hLp, List.getLastD_concat]
      exact lo_of_single x

/-! ### Prefix preservation for appending encodes -/

theorem push_take (l : List CologneCode) (c : CologneCode) (n : Nat)
    (hn : n + 1 ≤ l.length) :
    (cologne_code_push l c).take n = l.take n ∧
      l.length ≤ (cologne_code_push l c).length := by
  by_cases hlast : l.getLast? = some c
  · rw [push_of_getLast l c hlast]
    exact ⟨rfl, le_refl _⟩
  · rcases List.eq_nil_or_concat l with rfl | ⟨L, x, hL⟩
    · simp at hn
    · rw [List.concat_eq_append] at hL
      subst hL
      rcases List.eq_nil_or_concat L with rfl | ⟨M, y, hM⟩
      · have hxc : x ≠ c := fun he => hlast (by rw [he]; simp)
        rw [List.nil_append] at hn ⊢
        rw [push_single x c hxc]
        have hn0 : n = 0 := by simp at hn; omega
        subst hn0
        exact ⟨rfl, by simp⟩
      · rw [List.concat_eq_append] at hM
        subst hM
        have hre : (M ++ [y]) ++ [x] = M ++ [y, x] := by simp
        rw [hre] at hlast hn ⊢
        have hxc : x ≠ c := fun he => hlast (by rw [he, getLast_pair])
        by_cases hrep : x = CologneCode.Class0 ∧ y ≠ CologneCode.Space
        · obtain ⟨hx0, hyS⟩ := hrep
          subst hx0
          rw [push_pair_replace M y c hyS (fun he => hxc he.symm)]
          refine ⟨?_, by simp⟩
          have hn2 : n ≤ (M ++ [y]).length := by simp at hn ⊢; omega
          rw [show M ++ [y, CologneCode.Class0] =
            (M ++ [y]) ++ [CologneCode.Class0] by simp,
            show M ++ [y, c] = (M ++ [y]) ++ [c] by simp,
            List.take_append_of_le_length hn2,
            List.take_append_of_le_length hn2]
        · have hcond : x ≠ CologneCode.Class0 ∨ y = CologneCode.Space := by
            by_cases hx : x = CologneCode.Class0
            · right
              by_contra hy
              exact hrep ⟨hx, hy⟩
            · left; exact hx
          rw [push_pair_append M y x c hcond hxc]
          refine ⟨?_, by simp⟩
          have hn2 : n ≤ (M ++ [y, x]).length := by simp at hn ⊢; omega
          rw [show M ++ [y, x, c] = (M ++ [y, x]) ++ [c] by simp,
            List.take_append_of_le_length hn2]

theorem foldl_push_take (L l : List CologneCode) (n : Nat)
    (hn : n + 1 ≤ l.length) :
    (L.foldl cologne_code_push l).take n = l.take n ∧
      l.length ≤ (L.foldl cologne_code_push l).length := by
  induction L generalizing l with
  | nil => exact ⟨rfl, le_refl _⟩
  | cons c rest ih =>
    obtain ⟨h1, h2⟩ := push_take l c n hn
    obtain ⟨h3, h4⟩ := ih (cologne_code_push l c) (by omega)
    exact ⟨h3.trans h1, h2.trans h4⟩

theorem parse_as_char : ∀ c : CologneCode, code_of_char c.as_char = c := by
  decide

theorem parse_map (l : List CologneCode) :
    parseCologne (l.map CologneCode.as_char) = l := by
  unfold parseCologne
  rw [List.map_map]
  have h : code_of_char ∘ CologneCode.as_char = id := by
    funext c
    exact parse_as_char c
  rw [h, List.map_id]

/-! ### Claims -/

/-- C1: the claim as stated is false — on input `"a"` (byte 97) the list
sink produces `[Class0]` and the string sink `"0"`, but the packed sink's
`finish` drops the lone `Class0`, so its decoded content is empty. -/
theorem C1_counterexample :
    utf8_to_cologne_codes_vec [97] [] = [CologneCode.Class0] ∧
    utf8_to_cologne_codes_string [97] [] = ['0'] ∧
    decodeList (CologneVec.read_from_utf8 CologneVec.new [97]) = [] := by
  decide

/-- C1 (amended): for every input, the string sink parsed back equals the
list sink, and the packed sink decoded equals them as well unless the
un-finished logical stream is exactly `[Class0]`, in which case the
packed sink is empty while the others hold `[Class0]`. -/
theorem C1_cross_sink_amended (bytes : List Nat) :
    parseCologne (utf8_to_cologne_codes_string bytes []) =
      utf8_to_cologne_codes_vec bytes [] ∧
    ((runEmits bytes initState).2.foldl cologne_code_push [] ≠
        [CologneCode.Class0] →
      decodeList (CologneVec.read_from_utf8 CologneVec.new bytes) =
        utf8_to_cologne_codes_vec bytes []) ∧
    ((runEmits bytes initState).2.foldl cologne_code_push [] =
        [CologneCode.Class0] →
      decodeList (CologneVec.read_from_utf8 CologneVec.new bytes) = [] ∧
        utf8_to_cologne_codes_vec bytes [] = [CologneCode.Class0]) := by
  have hdec := decode_repr _ _
    (packed_entry bytes CologneVec.new [] ⟨rfl, rfl⟩)
  refine ⟨?_, ?_, ?_⟩
  · rw [string_entry bytes [], List.nil_append, parse_map]
  · intro hne
    rw [hdec, vec_entry bytes [], finishL_eq _ hne]
  · intro heq
    rw [hdec, heq, vec_entry bytes [], heq]
    exact ⟨packedFinishL_class0, vecFinishL_class0⟩

theorem C1_witness :
    parseCologne (utf8_to_cologne_codes_string [99] []) =
      utf8_to_cologne_codes_vec [99] [] ∧
    decodeList (CologneVec.read_from_utf8 CologneVec.new [99]) =
      utf8_to_cologne_codes_vec [99] [] ∧
    decodeList (CologneVec.read_from_utf8 CologneVec.new [97]) = [] :=
  ⟨(C1_cross_sink_amended [99]).1,
   (C1_cross_sink_amended [99]).2.1 (by decide),
   ((C1_cross_sink_amended [97]).2.2 (by decide)).1⟩

/-- C2: the claim as stated is false — input `"bab"` produces two
adjacent `Class1`s in all three sinks, because pushing `Class1` onto the
tail `[Class1, Class0]` overwrites the stray `Class0` in place and lands
next to the earlier `Class1`. -/
theorem C2_counterexample :
    utf8_to_cologne_codes_vec [98, 97, 98] [] =
      [CologneCode.Class1, CologneCode.Class1] ∧
    decodeList (CologneVec.read_from_utf8 CologneVec.new [98, 97, 98]) =
      [CologneCode.Class1, CologneCode.Class1] ∧
    utf8_to_cologne_codes_string [98, 97, 98] [] = ['1', '1'] := by
  decide

/-- C2 (amended): adjacent duplicates can only be equal digit classes
created by the stray-zero overwrite; no two adjacent equal `Class0`s or
`Space`s ever occur, in any sink. -/
theorem C2_dedup_amended (bytes : List Nat) :
    NoBadAdj (utf8_to_cologne_codes_vec bytes []) ∧
    NoBadAdj (decodeList (CologneVec.read_from_utf8 CologneVec.new bytes)) ∧
    List.Chain' (fun a b : Char => ¬(a = b ∧ (b = '0' ∨ b = ' ')))
      (utf8_to_cologne_codes_string bytes []) := by
  have hinv := foldl_push_invariants (runEmits bytes initState).2 []
    noBadAdj_nil tailOK_nil
  have hvec : NoBadAdj (utf8_to_cologne_codes_vec bytes []) := by
    rw [vec_entry bytes []]
    exact vecFinishL_noBadAdj _ hinv.1 hinv.2
  refine ⟨hvec, ?_, ?_⟩
  · have hdec := decode_repr _ _
      (packed_entry bytes CologneVec.new [] ⟨rfl, rfl⟩)
    rw [hdec]
    by_cases hC0 : (runEmits bytes initState).2.foldl cologne_code_push [] =
        [CologneCode.Class0]
    · rw [hC0, packedFinishL_class0]
      exact List.chain'_nil
    · rw [← finishL_eq _ hC0, ← vec_entry bytes []]
      exact hvec
  · rw [string_entry bytes [], List.nil_append, List.chain'_map]
    refine hvec.imp ?_
    intro a b hab hc
    refine hab ⟨?_, ?_⟩
    · have : ∀ x y : CologneCode, x.as_char = y.as_char → x = y := by decide
      exact this a b hc.1
    · rcases hc.2 with h0 | hS
      · left
        have : ∀ x : CologneCode, x.as_char = (.Class0 : CologneCode).as_char →
            x = .Class0 := by decide
        exact this b h0
      · right
        have : ∀ x : CologneCode, x.as_char = (.Space : CologneCode).as_char →
            x = .Space := by decide
        exact this b hS

/-- C3: the claim as stated is false — `"a"` encodes to `[Class0]` via
the list sink, but `from_codes` re-applies `finish`, which drops the
lone `Class0`, so the round trip loses it. -/
theorem C3_counterexample :
    utf8_to_cologne_codes_vec [97] [] = [CologneCode.Class0] ∧
    decodeList (CologneVec.from_codes [CologneCode.Class0]) = [] := by
  decide

/-- C3 (amended): for every class sequence the list sink produces other
than the lone `[Class0]`, building a packed vector via `from_codes` and
decoding it back via `internal_iter` reproduces the sequence. -/
theorem C3_roundtrip_amended (bytes : List Nat)
    (h : utf8_to_cologne_codes_vec bytes [] ≠ [CologneCode.Class0]) :
    decodeList (CologneVec.from_codes (utf8_to_cologne_codes_vec bytes [])) =
      utf8_to_cologne_codes_vec bytes [] := by
  rw [from_codes_decode]
  rw [vec_entry bytes []] at h ⊢
  have hinv := foldl_push_invariants (runEmits bytes initState).2 []
    noBadAdj_nil tailOK_nil
  exact packedFinishL_of_finished _ hinv.1 hinv.2 h

theorem C3_witness :
    decodeList (CologneVec.from_codes (utf8_to_cologne_codes_vec
      [119, 105, 107, 105, 112, 101, 100, 105, 97] [])) =
      utf8_to_cologne_codes_vec
        [119, 105, 107, 105, 112, 101, 100, 105, 97] [] :=
  C3_roundtrip_amended [119, 105, 107, 105, 112, 101, 100, 105, 97]
    (by decide)

theorem C4_aux1 : ∀ l0 l1 b : Fin 27,
    (l1.val = 2 ∨ l1.val = 3 ∨ l1.val = 15 ∨ l1.val = 19) →
      resolveUncertain l0.val l1.val b.val =
        specResolveRule l0.val l1.val b.val := by
  decide

theorem C4_aux2 : ∀ l0 l1 b : Fin 27,
    l1.val = 2 → l0.val ≠ 26 → l0.val ≠ 18 → l0.val ≠ 25 →
      resolveUncertain l0.val l1.val b.val = some
        (if b.val = 0 ∨ b.val = 7 ∨ b.val = 10 ∨ b.val = 14 ∨ b.val = 16 ∨
            b.val = 20 ∨ b.val = 23
         then CologneCode.Class4 else CologneCode.Class8) := by
  decide

theorem C4_aux3 : ∀ l0 l1 b : Fin 27,
    l1.val = 2 → l0.val = 26 →
      (resolveUncertain l0.val l1.val b.val = some CologneCode.Class4 ↔
        (b.val = 0 ∨ b.val = 7 ∨ b.val = 10 ∨ b.val = 11 ∨ b.val = 14 ∨
          b.val = 16 ∨ b.val = 17 ∨ b.val = 20 ∨ b.val = 23)) := by
  decide

/-- C4: the pending-uncertain resolver agrees with the nine-rule
priority table of spec section 4.3 everywhere on the classifier's
domain, and in particular the two uncertain-C cases behave exactly as
claimed. -/
theorem C4_resolution_table (l0 l1 b : Fin 27)
    (h : l1.val = 2 ∨ l1.val = 3 ∨ l1.val = 15 ∨ l1.val = 19) :
    resolveUncertain l0.val l1.val b.val =
      specResolveRule l0.val l1.val b.val ∧
    (l1.val = 2 → l0.val ≠ 26 → l0.val ≠ 18 → l0.val ≠ 25 →
      resolveUncertain l0.val l1.val b.val = some
        (if b.val = 0 ∨ b.val = 7 ∨ b.val = 10 ∨ b.val = 14 ∨ b.val = 16 ∨
            b.val = 20 ∨ b.val = 23
         then CologneCode.Class4 else CologneCode.Class8)) ∧
    (l1.val = 2 → l0.val = 26 →
      (resolveUncertain l0.val l1.val b.val = some CologneCode.Class4 ↔
        (b.val = 0 ∨ b.val = 7 ∨ b.val = 10 ∨ b.val = 11 ∨ b.val = 14 ∨
          b.val = 16 ∨ b.val = 17 ∨ b.val = 20 ∨ b.val = 23))) :=
  ⟨C4_aux1 l0 l1 b h, C4_aux2 l0 l1 b, C4_aux3 l0 l1 b⟩

theorem C4_witness :
    resolveUncertain 26 2 0 = specResolveRule 26 2 0 :=
  (C4_resolution_table ⟨26, by decide⟩ ⟨2, by decide⟩ ⟨0, by decide⟩
    (Or.inl rfl)).1

/-- C5: encoding is total — the resolver's `unreachable!` arm and the
classifier's unchecked lookup are never reached in any sink (the `stuck`
flag stays `false`), the case-folded index never exceeds 26, and empty
input produces empty output everywhere. -/
theorem C5_no_panic (bytes : List Nat) :
    ((iterFold cologne_code_push bytes initState []).1).stuck = false ∧
    ((iterFold CologneVec.push bytes initState CologneVec.new).1).stuck =
      false ∧
    ((iterFold cologne_code_push_char bytes initState
      ⟨none, none, []⟩).1).stuck = false ∧
    (∀ b : Nat, lowercase_b b ≤ 26) ∧
    utf8_to_cologne_codes_vec [] [] = [] ∧
    decodeList (CologneVec.read_from_utf8 CologneVec.new []) = [] ∧
    utf8_to_cologne_codes_string [] [] = [] := by
  have hinv := runEmits_inv bytes initState initState_inv
  refine ⟨?_, ?_, ?_, lowercase_b_le, by decide, by decide, by decide⟩
  · rw [iterFold_eq]
    exact hinv.1
  · rw [iterFold_eq]
    exact hinv.1
  · rw [iterFold_eq]
    exact hinv.1

/-- C6: the claim as stated is false — an ASCII letter directly after the
lead byte 195 is consumed as a failed continuation and dropped, so byte
65 (`A`) after 195 contributes nothing, while `A` alone encodes to
`[Class0]`. -/
theorem C6_counterexample :
    utf8_to_cologne_codes_vec [195, 65] [] = [] ∧
    utf8_to_cologne_codes_vec [65] [] = [CologneCode.Class0] := by
  decide

/-- C6 (amended): a byte at most `0x7F` is handed to the classifier
unchanged only when the continuation flag is disarmed; when the flag is
armed (the previous byte was 195), the byte merely disarms the flag and
is dropped without being classified. -/
theorem C6_ascii_passthrough {σ : Type} (push : σ → CologneCode → σ)
    (b : Nat) (st : IterState) (s : σ) (hb : b ≤ 0x7F) :
    (st.utf8 = false → iterStep push b st s = classifyStep push b st s) ∧
    (st.utf8 = true → iterStep push b st s = ({ st with utf8 := false }, s)) := by
  unfold iterStep
  rw [if_neg (by omega)]
  constructor
  · intro hu
    rw [if_neg (by rw [hu]; exact Bool.false_ne_true)]
  · intro hu
    rw [if_pos hu, if_neg (by omega), if_neg (by omega),
      if_neg (by omega), if_neg (by omega)]

theorem C6_witness :
    iterStep cologne_code_push 65
      ⟨true, 26, 26, false, false⟩ [] =
      (⟨false, 26, 26, false, false⟩, []) ∧
    iterStep cologne_code_push 65 initState [] =
      classifyStep cologne_code_push 65 initState [] :=
  ⟨(C6_ascii_passthrough cologne_code_push 65
      ⟨true, 26, 26, false, false⟩ [] (by decide)).2 rfl,
   (C6_ascii_passthrough cologne_code_push 65 initState []
      (by decide)).1 rfl⟩

/-- C7: the claim as stated is false — the bytes `[195, 159]` are the
UTF-8 encoding of `"ß"`, whose full-uppercase transform is `"SS"`
(bytes `[83, 83]`); the former encodes to the empty sequence (the
continuation byte 159 is above `0x7F` and is dropped before the umlaut
match can see it), the latter to `[Class8]`. -/
theorem C7_counterexample :
    utf8_to_cologne_codes_vec [195, 159] [] = [] ∧
    utf8_to_cologne_codes_vec [83, 83] [] = [CologneCode.Class8] ∧
    utf8_to_cologne_codes_string [195, 159] [] = [] ∧
    utf8_to_cologne_codes_string [83, 83] [] = ['8'] := by
  decide

/-- C7 (amended): for every ASCII input (all bytes at most `0x7F`),
encoding the input, its lowercase transform, and its uppercase transform
yields identical output in every sink. -/
theorem C7_case_folding_amended (bytes : List Nat)
    (h : ∀ b ∈ bytes, b ≤ 0x7F) :
    (utf8_to_cologne_codes_vec (bytes.map asciiLower) [] =
        utf8_to_cologne_codes_vec bytes [] ∧
      utf8_to_cologne_codes_vec (bytes.map asciiUpper) [] =
        utf8_to_cologne_codes_vec bytes []) ∧
    (CologneVec.read_from_utf8 CologneVec.new (bytes.map asciiLower) =
        CologneVec.read_from_utf8 CologneVec.new bytes ∧
      CologneVec.read_from_utf8 CologneVec.new (bytes.map asciiUpper) =
        CologneVec.read_from_utf8 CologneVec.new bytes) ∧
    (utf8_to_cologne_codes_string (bytes.map asciiLower) [] =
        utf8_to_cologne_codes_string bytes [] ∧
      utf8_to_cologne_codes_string (bytes.map asciiUpper) [] =
        utf8_to_cologne_codes_string bytes []) := by
  have hlow : runEmits (bytes.map asciiLower) initState =
      runEmits bytes initState :=
    runEmits_map_congr asciiLower
      (fun b hb => lowercase_asciiLower ⟨b, by omega⟩) bytes initState h rfl
  have hup : runEmits (bytes.map asciiUpper) initState =
      runEmits bytes initState :=
    runEmits_map_congr asciiUpper
      (fun b hb => lowercase_asciiUpper ⟨b, by omega⟩) bytes initState h rfl
  refine ⟨⟨?_, ?_⟩, ⟨?_, ?_⟩, ⟨?_, ?_⟩⟩
  · unfold utf8_to_cologne_codes_vec
    rw [iterFold_eq, iterFold_eq, hlow]
  · unfold utf8_to_cologne_codes_vec
    rw [iterFold_eq, iterFold_eq, hup]
  · unfold CologneVec.read_from_utf8
    rw [iterFold_eq, iterFold_eq, hlow]
  · unfold CologneVec.read_from_utf8
    rw [iterFold_eq, iterFold_eq, hup]
  · unfold utf8_to_cologne_codes_string
    rw [iterFold_eq, iterFold_eq, hlow]
  · unfold utf8_to_cologne_codes_string
    rw [iterFold_eq, iterFold_eq, hup]

theorem C7_witness :
    utf8_to_cologne_codes_vec [97, 104, 111] [] =
      utf8_to_cologne_codes_vec [65, 72, 79] [] :=
  ((C7_case_folding_amended [65, 72, 79] (by decide)).1).1

/-- C8: every safely constructed `CologneVec` satisfies the packed
representation invariant: `ceil(len/2)` backing bytes, every stored
nibble a valid tag, zero padding in an odd tail. -/
theorem C8_representation_invariant (v : CologneVec) (h : SafeReach v) :
    WF v := by
  obtain ⟨l, hl⟩ := safeReach_repr v h
  exact repr_WF v l hl

theorem C8_witness :
    WF ((CologneVec.new.push CologneCode.Class3).push CologneCode.Class0) :=
  C8_representation_invariant _
    (SafeReach.push _ _ (SafeReach.push _ _ SafeReach.new))

/-- C9: the fixture — encoding the UTF-8 bytes of
`"Müller-Lüdenscheidt"` yields the expected class sequence in the list
and packed sinks and the expected printable string. -/
theorem C9_mueller_fixture :
    utf8_to_cologne_codes_vec
      [77, 195, 188, 108, 108, 101, 114, 45, 76, 195, 188,
       100, 101, 110, 115, 99, 104, 101, 105, 100, 116] [] =
      [CologneCode.Class6, CologneCode.Class5, CologneCode.Class7,
       CologneCode.Space, CologneCode.Class5, CologneCode.Class2,
       CologneCode.Class6, CologneCode.Class8, CologneCode.Class2] ∧
    decodeList (CologneVec.read_from_utf8 CologneVec.new
      [77, 195, 188, 108, 108, 101, 114, 45, 76, 195, 188,
       100, 101, 110, 115, 99, 104, 101, 105, 100, 116]) =
      [CologneCode.Class6, CologneCode.Class5, CologneCode.Class7,
       CologneCode.Space, CologneCode.Class5, CologneCode.Class2,
       CologneCode.Class6, CologneCode.Class8, CologneCode.Class2] ∧
    utf8_to_cologne_codes_string
      [77, 195, 188, 108, 108, 101, 114, 45, 76, 195, 188,
       100, 101, 110, 115, 99, 104, 101, 105, 100, 116] [] =
      ['6', '5', '7', ' ', '5', '2', '6', '8', '2'] := by
  decide

theorem packedFinishL_cases (l : List CologneCode) :
    packedFinishL l = l ∨ packedFinishL l = l.dropLast := by
  cases h : l.getLast? with
  | none => exact Or.inl (by simp [packedFinishL, h])
  | some y =>
    simp only [packedFinishL, h]
    split_ifs <;> simp

/-- C10: the claim as stated is false — the string sink's pending buffer
starts empty regardless of the prior string content, so no
adjacency-dedup is applied across the boundary: appending the encoding
of `"a"` to a prior `"0"` yields `"00"`, two equal adjacent characters
(the list sink, by contrast, deduplicates across the boundary). -/
theorem C10_counterexample :
    utf8_to_cologne_codes_string [97] ['0'] = ['0', '0'] ∧
    utf8_to_cologne_codes_vec [97] [CologneCode.Class0] =
      [CologneCode.Class0] := by
  decide

/-- C10 (amended): all three entry points append; the list and packed
sinks apply their boundary rules against the previously stored last
element (so prior content up to its last element is always preserved),
while the string sink preserves the prior text in full and appends the
fresh encoding without consulting it. -/
theorem C10_append_amended (bytes : List Nat) :
    (∀ prior : List CologneCode, ∃ t,
      utf8_to_cologne_codes_vec bytes prior = prior.dropLast ++ t) ∧
    (∀ (v : CologneVec) (l : List CologneCode), PackedRepr v l → ∃ t,
      decodeList (CologneVec.read_from_utf8 v bytes) = l.dropLast ++ t) ∧
    (∀ prior : List Char,
      utf8_to_cologne_codes_string bytes prior =
        prior ++ (utf8_to_cologne_codes_vec bytes []).map
          CologneCode.as_char) := by
  refine ⟨?_, ?_, fun prior => string_entry bytes prior⟩
  · intro prior
    rcases List.eq_nil_or_concat prior with rfl | ⟨P, x, hP⟩
    · exact ⟨utf8_to_cologne_codes_vec bytes [], by simp⟩
    · rw [List.concat_eq_append] at hP
      subst hP
      set n := (P ++ [x]).length with hn
      have hn1 : n - 1 = P.length := by simp [hn]
      obtain ⟨hf1, hf2⟩ := foldl_push_take (runEmits bytes initState).2
        (P ++ [x]) (n - 1) (by simp [hn1])
      have hlen : (P ++ [x]).length = P.length + 1 := by simp
      obtain ⟨hp1, hp2⟩ := push_take
        ((runEmits bytes initState).2.foldl cologne_code_push (P ++ [x]))
        CologneCode.Space (n - 1) (by rw [hn1]; omega)
      refine ⟨(utf8_to_cologne_codes_vec bytes (P ++ [x])).drop (n - 1), ?_⟩
      have htake : (utf8_to_cologne_codes_vec bytes (P ++ [x])).take (n - 1) =
          (P ++ [x]).dropLast := by
        rw [vec_entry, vecFinishL, List.dropLast_eq_take, List.take_take]
        rw [show ∀ m k, m ⊓ k = min m k from fun m k => rfl]
        rw [min_eq_left (by rw [hn1]; omega)]
        rw [hp1, hf1, List.dropLast_eq_take, hn1]
      rw [← htake, List.take_append_drop]
  · intro v l hrep
    have hdec := decode_repr _ _ (packed_entry bytes v l hrep)
    rcases List.eq_nil_or_concat l with rfl | ⟨P, x, hP⟩
    · exact ⟨decodeList (CologneVec.read_from_utf8 v bytes), by simp⟩
    · rw [List.concat_eq_append] at hP
      subst hP
      set n := (P ++ [x]).length with hn
      have hn1 : n - 1 = P.length := by simp [hn]
      have hlen : (P ++ [x]).length = P.length + 1 := by simp
      obtain ⟨hf1, hf2⟩ := foldl_push_take (runEmits bytes initState).2
        (P ++ [x]) (n - 1) (by simp [hn1])
      refine ⟨(decodeList (CologneVec.read_from_utf8 v bytes)).drop (n - 1),
        ?_⟩
      have htake : (decodeList (CologneVec.read_from_utf8 v bytes)).take
          (n - 1) = (P ++ [x]).dropLast := by
        rw [hdec]
        rcases packedFinishL_cases ((runEmits bytes initState).2.foldl
          cologne_code_push (P ++ [x])) with hc | hc
        · rw [hc, hf1, List.dropLast_eq_take, hn1]
        · rw [hc, List.dropLast_eq_take, List.take_take]
          rw [show ∀ m k, m ⊓ k = min m k from fun m k => rfl]
          rw [min_eq_left (by rw [hn1]; omega)]
          rw [hf1, List.dropLast_eq_take, hn1]
      rw [← htake, List.take_append_drop]

theorem C10_witness :
    (∃ t, utf8_to_cologne_codes_vec [97]
      [CologneCode.Class1, CologneCode.Class0] = [CologneCode.Class1] ++ t) ∧
    (∃ t, decodeList (CologneVec.read_from_utf8 ⟨2, [18]⟩ [97]) =
      [CologneCode.Class1] ++ t) ∧
    utf8_to_cologne_codes_string [97] ['0'] =
      ['0'] ++ (utf8_to_cologne_codes_vec [97] []).map
        CologneCode.as_char :=
  ⟨(C10_append_amended [97]).1 [CologneCode.Class1, CologneCode.Class0],
   (C10_append_amended [97]).2.1 ⟨2, [18]⟩
     [CologneCode.Class1, CologneCode.Class2] ⟨rfl, rfl⟩,
   (C10_append_amended [97]).2.2 ['0']⟩

end CologneCodes
